import Mathlib

/-!
Shallow embedding of the `bizapi` Go package (URL signing for Google API
for Business) together with the parts of the Go standard library it relies
on: `encoding/base64` (standard alphabet, padded, newline-skipping, lax
about trailing bits), `crypto/sha1`, `crypto/hmac`, `net/url` parsing
(`url.Parse`, `url.ParseQuery`) and the line splitting of `bufio.Scanner`.

Strings are modelled as Lean strings (sequences of Unicode scalar values);
all the inputs exercised by the development are ASCII, where this agrees
with Go's byte strings.  Machine words are `Nat` reduced modulo `2 ^ 32`.
Fallible Go functions returning `(T, error)` are modelled as
`Except String T`.
-/

set_option maxRecDepth 1000000
set_option maxHeartbeats 4000000

namespace Bizapi

/-- 2 ^ 32, the modulus for 32-bit words. -/
def M32 : Nat := 4294967296

/-- Rotate a 32-bit word (given as a `Nat` below `M32`) left by `n` bits. -/
def rotl (n x : Nat) : Nat := (x <<< n) % M32 + x >>> (32 - n)

/-- Big-endian bytes (most significant first) of `n`, `k` bytes wide. -/
def natToBytesBE (k n : Nat) : List Nat :=
  (List.range k).map (fun i => n / 2 ^ (8 * (k - 1 - i)) % 256)

/-- Group a list of bytes into big-endian 32-bit words. -/
def bytesToWords : List Nat → List Nat
  | a :: b :: c :: d :: rest =>
      (a * 16777216 + b * 65536 + c * 256 + d) :: bytesToWords rest
  | _ => []

/-- Flatten a list of 32-bit words into big-endian bytes. -/
def wordsToBytes (ws : List Nat) : List Nat :=
  ws.foldr (fun w acc => natToBytesBE 4 w ++ acc) []

/-- Split a list into consecutive chunks of `n` elements (`n > 0`), with
structural recursion on a fuel bounded by the list length. -/
def chunksFuel (n : Nat) : Nat → List α → List (List α)
  | 0, _ => []
  | _, [] => []
  | fuel + 1, x :: xs => (x :: xs).take n :: chunksFuel n fuel ((x :: xs).drop n)

/-- Split a list into consecutive chunks of `n` elements (`n > 0`). -/
def chunks (n : Nat) (l : List α) : List (List α) := chunksFuel n l.length l

/-- The SHA-1 round function, FIPS 180-4. -/
def sha1F (i b c d : Nat) : Nat :=
  if i < 20 then (b &&& c) ||| ((b ^^^ 4294967295) &&& d)
  else if i < 40 then b ^^^ c ^^^ d
  else if i < 60 then (b &&& c) ||| (b &&& d) ||| (c &&& d)
  else b ^^^ c ^^^ d

/-- The SHA-1 round constants. -/
def sha1K (i : Nat) : Nat :=
  if i < 20 then 1518500249
  else if i < 40 then 1859775393
  else if i < 60 then 2400959708
  else 3395469782

/-- Extend the 16 message words of a block to the 80-word SHA-1 schedule. -/
def sha1Schedule (w : List Nat) : List Nat :=
  (List.range 64).foldl
    (fun acc _ =>
      acc ++ [rotl 1 ((acc.getD (acc.length - 3) 0) ^^^ (acc.getD (acc.length - 8) 0) ^^^
        (acc.getD (acc.length - 14) 0) ^^^ (acc.getD (acc.length - 16) 0))])
    w

/-- One SHA-1 round: update the five-word state with word `wi` at round `i`. -/
def sha1Round (st : Nat × Nat × Nat × Nat × Nat) (iw : Nat × Nat) :
    Nat × Nat × Nat × Nat × Nat :=
  match st, iw with
  | (a, b, c, d, e), (i, wi) =>
      ((rotl 5 a + sha1F i b c d + e + sha1K i + wi) % M32, a, rotl 30 b, c, d)

/-- Compress one 64-byte block into the running SHA-1 state. -/
def sha1Block (h : List Nat) (block : List Nat) : List Nat :=
  let ws := sha1Schedule (bytesToWords block)
  let h0 := h.getD 0 0
  let h1 := h.getD 1 0
  let h2 := h.getD 2 0
  let h3 := h.getD 3 0
  let h4 := h.getD 4 0
  match ((List.range 80).zip ws).foldl sha1Round (h0, h1, h2, h3, h4) with
  | (a, b, c, d, e) =>
      [(h0 + a) % M32, (h1 + b) % M32, (h2 + c) % M32, (h3 + d) % M32, (h4 + e) % M32]

/-- SHA-1 of a byte sequence, as 20 bytes (crypto/sha1). -/
def sha1 (msg : List Nat) : List Nat :=
  let padZeros := (55 + 64 - msg.length % 64) % 64
  let padded := msg ++ 128 :: List.replicate padZeros 0 ++ natToBytesBE 8 (msg.length * 8)
  wordsToBytes ((chunks 64 padded).foldl sha1Block
    [1732584193, 4023233417, 2562383102, 271733878, 3285377520])

/-- HMAC-SHA1 (crypto/hmac with crypto/sha1): keys longer than the 64-byte
block size are hashed first, then padded with zeros; inner pad byte `0x36`,
outer pad byte `0x5c`. -/
def hmacSha1 (key msg : List Nat) : List Nat :=
  let k1 := if key.length > 64 then sha1 key else key
  let kp := k1 ++ List.replicate (64 - k1.length) 0
  sha1 ((kp.map (fun b => b ^^^ 92)) ++ sha1 ((kp.map (fun b => b ^^^ 54)) ++ msg))

/-- UTF-8 bytes of one character, matching Go's encoding of a string
literal into `[]byte`. -/
def charBytes (c : Char) : List Nat :=
  let n := c.toNat
  if n < 128 then [n]
  else if n < 2048 then [192 + n / 64, 128 + n % 64]
  else if n < 65536 then [224 + n / 4096, 128 + n / 64 % 64, 128 + n % 64]
  else [240 + n / 262144, 128 + n / 4096 % 64, 128 + n / 64 % 64, 128 + n % 64]

/-- UTF-8 bytes of a string (Go's `[]byte(s)`). -/
def strBytes (s : String) : List Nat :=
  s.data.foldr (fun c acc => charBytes c ++ acc) []

/-! ### base64 (encoding/base64, StdEncoding) -/

/-- The standard base64 alphabet as a character table. -/
def b64Table : List Char :=
  "ABCDEFGHIJKLMNOPQRSTUVWXYZabcdefghijklmnopqrstuvwxyz0123456789+/".data

/-- Character for a 6-bit value in the standard base64 alphabet. -/
def b64Char (n : Nat) : Char := b64Table.getD n 'A'

/-- Value of a standard-alphabet base64 character, `none` if unknown. -/
def b64Val (c : Char) : Option Nat :=
  if 65 ≤ c.toNat ∧ c.toNat ≤ 90 then some (c.toNat - 65)
  else if 97 ≤ c.toNat ∧ c.toNat ≤ 122 then some (c.toNat - 97 + 26)
  else if 48 ≤ c.toNat ∧ c.toNat ≤ 57 then some (c.toNat - 48 + 52)
  else if c = '+' then some 62
  else if c = '/' then some 63
  else none

/-- base64 (standard alphabet, with `=` padding) of a byte sequence, as in
Go's `base64.StdEncoding.EncodeToString`. -/
def encodeStdB64 : List Nat → List Char
  | [] => []
  | [a] => [b64Char (a / 4), b64Char (a % 4 * 16), '=', '=']
  | [a, b] => [b64Char (a / 4), b64Char (a % 4 * 16 + b / 16), b64Char (b % 16 * 4), '=']
  | a :: b :: c :: rest =>
      b64Char (a / 4) :: b64Char (a % 4 * 16 + b / 16) ::
        b64Char (b % 16 * 4 + c / 64) :: b64Char (c % 64) :: encodeStdB64 rest

/-- Decode standard base64 after newline stripping: four characters at a
time, `=` padding allowed only in the final quantum, trailing bits not
checked (Go's non-strict default). -/
def decodeStdB64Aux : List Char → Except String (List Nat)
  | [] => .ok []
  | c0 :: c1 :: c2 :: c3 :: rest =>
      match b64Val c0, b64Val c1 with
      | some v0, some v1 =>
          if c2 = '=' then
            if c3 = '=' ∧ rest = [] then .ok [v0 * 4 + v1 / 16]
            else .error "illegal base64 data at input byte"
          else
            match b64Val c2 with
            | some v2 =>
                if c3 = '=' then
                  if rest = [] then .ok [v0 * 4 + v1 / 16, v1 % 16 * 16 + v2 / 4]
                  else .error "illegal base64 data at input byte"
                else
                  match b64Val c3 with
                  | some v3 =>
                      match decodeStdB64Aux rest with
                      | .ok bs =>
                          .ok ((v0 * 4 + v1 / 16) :: (v1 % 16 * 16 + v2 / 4) :: (v2 % 4 * 64 + v3) :: bs)
                      | .error e => .error e
                  | none => .error "illegal base64 data at input byte"
            | none => .error "illegal base64 data at input byte"
      | _, _ => .error "illegal base64 data at input byte"
  | _ => .error "illegal base64 data at input byte"

/-- Go's `base64.StdEncoding.DecodeString`: newlines are skipped, input
must otherwise consist of whole 4-character quanta. -/
def decodeStdB64 (s : List Char) : Except String (List Nat) :=
  decodeStdB64Aux (s.filter (fun c => ¬ (c = '\n' ∨ c = '\r')))

/-- EncodeUrlSafeBase64 encodes bytes with standard base64 and then
replaces `+` by `-` and `/` by `_` (auth.go). -/
def EncodeUrlSafeBase64 (str : List Nat) : String :=
  String.mk ((encodeStdB64 str).map (fun c => if c = '+' then '-' else if c = '/' then '_' else c))

/-- DecodeUrlSafeBase64 replaces `-` by `+` and `_` by `/` and then decodes
standard base64 (auth.go). -/
def DecodeUrlSafeBase64 (wiered : String) : Except String (List Nat) :=
  match decodeStdB64 (wiered.data.map (fun c => if c = '-' then '+' else if c = '_' then '/' else c)) with
  | .ok bs => .ok bs
  | .error e => .error ("base64.StdEncoding.DecodeString failed: " ++ e)

/-! ### net/url: percent decoding and query parsing -/

/-- The escaping modes of net/url that this development needs. -/
inductive EncMode where
  | path
  | query
  | host
  | zone
  | fragment
  | userPassword
deriving DecidableEq

/-- Decimal or hexadecimal digit value of a character, if any.  Character
classes are compared through `Char.toNat`, the byte value Go compares. -/
def hexVal (c : Char) : Option Nat :=
  if 48 ≤ c.toNat ∧ c.toNat ≤ 57 then some (c.toNat - 48)
  else if 97 ≤ c.toNat ∧ c.toNat ≤ 102 then some (c.toNat - 97 + 10)
  else if 65 ≤ c.toNat ∧ c.toNat ≤ 70 then some (c.toNat - 65 + 10)
  else none

/-- Whether `c` is an ASCII letter or digit. -/
def isAlphaNum (c : Char) : Bool :=
  (97 ≤ c.toNat ∧ c.toNat ≤ 122) ∨ (65 ≤ c.toNat ∧ c.toNat ≤ 90) ∨ (48 ≤ c.toNat ∧ c.toNat ≤ 57)

/-- net/url's `shouldEscape` restricted to host/zone mode: characters that
may not appear raw inside a host component. -/
def shouldEscapeHost (c : Char) : Bool :=
  ¬ (isAlphaNum c ∨
     c ∈ ['!', '$', '&', '\'', '(', ')', '*', '+', ',', ';', '=', ':', '[', ']', '<', '>', '"'] ∨
     c ∈ ['-', '_', '.', '~'])

/-- net/url `unescape`: validates `%xx` escapes, converts `+` to space in
query mode, enforces the host-mode character restrictions.  Returns the
decoded characters (decoded bytes are represented by the character with
that code point). -/
def unescape (mode : EncMode) : List Char → Except String (List Char)
  | [] => .ok []
  | c :: rest =>
      if c = '%' then
        match rest with
        | a :: b :: rest' =>
            match hexVal a, hexVal b with
            | some va, some vb =>
                if mode = .host ∧ va < 8 ∧ ¬ (a = '2' ∧ b = '5') then
                  .error "invalid URL escape in host"
                else if mode = .zone ∧ ¬ (a = '2' ∧ b = '5') ∧ ¬ (va * 16 + vb = 32) ∧
                    shouldEscapeHost (Char.ofNat (va * 16 + vb)) then
                  .error "invalid character in host name"
                else
                  match unescape mode rest' with
                  | .ok cs => .ok (Char.ofNat (va * 16 + vb) :: cs)
                  | .error e => .error e
            | _, _ => .error "invalid URL escape"
        | _ => .error "invalid URL escape"
      else if c = '+' then
        match unescape mode rest with
        | .ok cs => .ok ((if mode = .query then ' ' else '+') :: cs)
        | .error e => .error e
      else
        if (mode = .host ∨ mode = .zone) ∧ c.toNat < 128 ∧ shouldEscapeHost c then
          .error "invalid character in host name"
        else
          match unescape mode rest with
          | .ok cs => .ok (c :: cs)
          | .error e => .error e

/-- Split a character list at every occurrence of `sep`, keeping empty
pieces (the semantics of iterating `strings.Cut`). -/
def splitChar (sep : Char) : List Char → List (List Char)
  | [] => [[]]
  | c :: rest =>
      match splitChar sep rest with
      | [] => if c = sep then [[], []] else [[c]]
      | h :: t => if c = sep then [] :: h :: t else (c :: h) :: t

/-- Split a character list at the first occurrence of `sep`
(`strings.Cut`): returns the part before and the part after; when `sep`
does not occur, the second component is empty, as in Go. -/
def cutChar (sep : Char) : List Char → List Char × List Char
  | [] => ([], [])
  | c :: rest =>
      if c = sep then ([], rest)
      else
        match cutChar sep rest with
        | (a, b) => (c :: a, b)

/-- A parsed query: list of key/value pairs in order of appearance.  Go's
`url.Values` is a map from key to the ordered list of that key's values;
`getAll` below recovers exactly those lists, which is all the package ever
reads from the map. -/
abbrev Query := List (String × String)

/-- All values bound to key `k`, in order (`url.Values[k]`). -/
def getAll (q : Query) (k : String) : List String :=
  (q.filter (fun p => p.1 = k)).map (fun p => p.2)

/-- Whether the key is present in the map (`_, ok := values[k]`). -/
def hasKey (q : Query) (k : String) : Bool :=
  q.any (fun p => p.1 = k)

/-- Process the `&`-separated pieces of a query string: `;` inside a piece
is an error, empty pieces are skipped, each piece is cut at the first `=`
and both sides are query-unescaped (net/url `parseQuery`; Go records the
first error and discards the partial map, which callers in auth.go treat
as failure). -/
def parsePieces : List (List Char) → Except String Query
  | [] => .ok []
  | p :: rest =>
      if p.contains ';' then .error "invalid semicolon separator in query"
      else if p.isEmpty then parsePieces rest
      else
        match cutChar '=' p with
        | (k, v) =>
            match unescape .query k, unescape .query v with
            | .ok k', .ok v' =>
                match parsePieces rest with
                | .ok q => .ok ((String.mk k', String.mk v') :: q)
                | .error e => .error e
            | .error e, _ => .error e
            | _, .error e => .error e

/-- net/url `ParseQuery`. -/
def ParseQuery (s : String) : Except String Query :=
  parsePieces (splitChar '&' s.data)

/-! ### net/url: URL parsing -/

/-- The components of a parsed URL that the package reads
(`url.URL.Scheme`, `.Opaque`, `.Host`, `.Path`, `.RawQuery`,
`.Fragment`). -/
structure URL where
  scheme : String
  opaquePart : String
  host : String
  path : String
  rawQuery : String
  fragment : String
deriving DecidableEq, Repr

/-- Whether the character is an ASCII control byte (net/url
`stringContainsCTLByte` checks bytes below space and DEL). -/
def isCTL (c : Char) : Bool := c.toNat < 32 ∨ c.toNat = 127

/-- ASCII lower-casing of one character (`strings.ToLower` on the scheme,
which net/url restricts to ASCII). -/
def toLowerChar (c : Char) : Char :=
  if 65 ≤ c.toNat ∧ c.toNat ≤ 90 then Char.ofNat (c.toNat + 32) else c

/-- net/url `getScheme` scanning loop over the remaining characters;
`acc` holds the scheme characters read so far and `orig` the whole
input. -/
def getSchemeAux (orig : List Char) : List Char → List Char → Except String (List Char × List Char)
  | [], _ => .ok ([], orig)
  | c :: rest, acc =>
      if (97 ≤ c.toNat ∧ c.toNat ≤ 122) ∨ (65 ≤ c.toNat ∧ c.toNat ≤ 90) then
        getSchemeAux orig rest (acc ++ [c])
      else if (48 ≤ c.toNat ∧ c.toNat ≤ 57) ∨ c = '+' ∨ c = '-' ∨ c = '.' then
        if acc.isEmpty then .ok ([], orig) else getSchemeAux orig rest (acc ++ [c])
      else if c = ':' then
        if acc.isEmpty then .error "missing protocol scheme" else .ok (acc, rest)
      else .ok ([], orig)

/-- net/url `getScheme`: the scheme (possibly empty) and the remainder. -/
def getScheme (s : List Char) : Except String (List Char × List Char) :=
  getSchemeAux s s []

/-- net/url `validOptionalPort`: empty, or `:` followed by digits only. -/
def validOptionalPort (p : List Char) : Bool :=
  match p with
  | [] => true
  | c :: rest => c = ':' ∧ rest.all (fun d => 48 ≤ d.toNat ∧ d.toNat ≤ 57)

/-- Index of the first occurrence of `pat` in `s` (`strings.Index`). -/
def idxOf : List Char → List Char → Option Nat
  | [], pat => if pat.isPrefixOf [] then some 0 else none
  | c :: rest, pat =>
      if pat.isPrefixOf (c :: rest) then some 0
      else (idxOf rest pat).map (fun i => i + 1)

/-- Index of the last position `≤ n` at which `pat` occurs in `s`. -/
def lastIdxFrom (s pat : List Char) : Nat → Option Nat
  | 0 => if pat.isPrefixOf s then some 0 else none
  | n + 1 =>
      if pat.isPrefixOf (s.drop (n + 1)) then some (n + 1) else lastIdxFrom s pat n

/-- Index of the last occurrence of `pat` in `s` (`strings.LastIndex`;
`none` plays the role of Go's `-1`). -/
def lastIndexOf (s pat : List Char) : Option Nat := lastIdxFrom s pat s.length

/-- net/url `parseHost`: bracketed IP literals with optional zone,
optional `:port`, and host-mode unescaping. -/
def parseHost (host : List Char) : Except String (List Char) :=
  if host.head? = some '[' then
    match lastIndexOf host [']'] with
    | none => .error "missing rbracket in host"
    | some i =>
        let colonPort := host.drop (i + 1)
        if ¬ validOptionalPort colonPort then .error "invalid port after host"
        else
          match idxOf (host.take i) ['%', '2', '5'] with
          | some zone =>
              match unescape .host (host.take zone) with
              | .error e => .error e
              | .ok host1 =>
                  match unescape .zone ((host.take i).drop zone) with
                  | .error e => .error e
                  | .ok host2 =>
                      match unescape .host (host.drop i) with
                      | .error e => .error e
                      | .ok host3 => .ok (host1 ++ host2 ++ host3)
          | none => unescape .host host
  else
    match lastIndexOf host [':'] with
    | some i =>
        if ¬ validOptionalPort (host.drop i) then .error "invalid port after host"
        else unescape .host host
    | none => unescape .host host

/-- net/url `validUserinfo`. -/
def validUserinfo (s : List Char) : Bool :=
  s.all (fun c => isAlphaNum c ∨
    c ∈ ['-', '.', '_', ':', '~', '!', '$', '&', '\'', '(', ')', '*', '+', ',', ';', '=', '%', '@'])

/-- net/url `parseAuthority`: split the userinfo at the last `@`, validate
and unescape it (the package never reads it back), parse the host. -/
def parseAuthority (authority : List Char) : Except String (List Char) :=
  match lastIndexOf authority ['@'] with
  | none => parseHost authority
  | some i =>
      match parseHost (authority.drop (i + 1)) with
      | .error e => .error e
      | .ok host =>
          let userinfo := authority.take i
          if ¬ validUserinfo userinfo then .error "net/url: invalid userinfo"
          else
            match cutChar ':' userinfo with
            | (user, pass) =>
                if userinfo.contains ':' then
                  match unescape .userPassword user, unescape .userPassword pass with
                  | .ok _, .ok _ => .ok host
                  | .error e, _ => .error e
                  | _, .error e => .error e
                else
                  match unescape .userPassword userinfo with
                  | .ok _ => .ok host
                  | .error e => .error e

/-- The body of net/url `parse` (viaRequest = false), after the fragment
has been split off: control-character check, `*` special case, scheme,
query cut, opaque/rootless handling, authority, path unescaping. -/
def parseAfterFragment (s : List Char) : Except String URL :=
  if s.any isCTL then .error "net/url: invalid control character in URL"
  else if s = ['*'] then .ok ⟨"", "", "", "*", "", ""⟩
  else
    match getScheme s with
    | .error e => .error e
    | .ok (schemeChars, rest0) =>
        let scheme := String.mk (schemeChars.map toLowerChar)
        let cutQ :=
          if rest0.getLast? = some '?' ∧ ¬ (rest0.dropLast.contains '?') then
            (rest0.dropLast, ([] : List Char))
          else cutChar '?' rest0
        match cutQ with
        | (rest1, rawQuery) =>
            if rest1.head? ≠ some '/' then
              if schemeChars ≠ [] then
                .ok ⟨scheme, String.mk rest1, "", "", String.mk rawQuery, ""⟩
              else if (cutChar '/' rest1).1.contains ':' then
                .error "first path segment in URL cannot contain colon"
              else
                match unescape .path rest1 with
                | .error e => .error e
                | .ok p => .ok ⟨scheme, "", "", String.mk p, String.mk rawQuery, ""⟩
            else
              if (schemeChars ≠ [] ∨ ¬ ['/', '/', '/'].isPrefixOf rest1) ∧
                  ['/', '/'].isPrefixOf rest1 then
                let afterSlashes := rest1.drop 2
                let authority :=
                  match idxOf afterSlashes ['/'] with
                  | some i => afterSlashes.take i
                  | none => afterSlashes
                let rest2 :=
                  match idxOf afterSlashes ['/'] with
                  | some i => afterSlashes.drop i
                  | none => []
                match parseAuthority authority with
                | .error e => .error e
                | .ok host =>
                    match unescape .path rest2 with
                    | .error e => .error e
                    | .ok p =>
                        .ok ⟨scheme, "", String.mk host, String.mk p, String.mk rawQuery, ""⟩
              else
                match unescape .path rest1 with
                | .error e => .error e
                | .ok p => .ok ⟨scheme, "", "", String.mk p, String.mk rawQuery, ""⟩

/-- net/url `Parse`: split the fragment at the first `#`, parse the rest,
then unescape and attach the fragment. -/
def urlParse (rawUrl : String) : Except String URL :=
  match cutChar '#' rawUrl.data with
  | (u, frag) =>
      match parseAfterFragment u with
      | .error e => .error e
      | .ok url =>
          if frag.isEmpty then .ok url
          else
            match unescape .fragment frag with
            | .error e => .error e
            | .ok f => .ok ⟨url.scheme, url.opaquePart, url.host, url.path, url.rawQuery, String.mk f⟩

/-! ### The bizapi package itself (auth.go) -/

/-- CreateSignature computes the signature of the path and raw query part
of a URL: parse the raw query, require a `client` parameter and no
`signature` parameter, decode the key, HMAC-SHA1 over
`path + "?" + rawQuery`, URL-safe base64 encode (auth.go). -/
def CreateSignature (requestUrl : URL) (key : String) : Except String String :=
  match ParseQuery requestUrl.rawQuery with
  | .error e => .error ("url.ParseQuery failed: " ++ e)
  | .ok values =>
      if ¬ hasKey values "client" then
        .error "A to-be-encoded URL must have the client query"
      else if hasKey values "signature" then
        .error "A to-be-encoded URL must NOT have the signature query"
      else
        let urlToSign := requestUrl.path ++ "?" ++ requestUrl.rawQuery
        match DecodeUrlSafeBase64 key with
        | .error e => .error ("DecodeUrlSafeBase64 failed: " ++ e)
        | .ok decodedKey => .ok (EncodeUrlSafeBase64 (hmacSha1 decodedKey (strBytes urlToSign)))

/-- CheckSignedUrl checks that a URL carries exactly one `client` and
exactly one `signature` query parameter (auth.go). -/
def CheckSignedUrl (rawUrl : String) : Except String (URL × Query) :=
  match urlParse rawUrl with
  | .error e => .error ("url.Parse failed: " ++ e)
  | .ok parsedUrl =>
      match ParseQuery parsedUrl.rawQuery with
      | .error e => .error ("url.ParseQuery failed: " ++ e)
      | .ok values =>
          if (getAll values "client").length ≠ 1 then
            .error "Request URL must contain exactly one client parameter."
          else if (getAll values "signature").length ≠ 1 then
            .error "Request URL must contain exactly one signature parameter."
          else .ok (parsedUrl, values)

/-- SignUrl parses the URL, computes its signature and appends it as
`&signature=...` to `scheme://host + path + "?" + rawQuery` (auth.go). -/
def SignUrl (rawUrl key : String) : Except String String :=
  match urlParse rawUrl with
  | .error e => .error ("url.Parse failed: " ++ e)
  | .ok u =>
      match CreateSignature u key with
      | .error e => .error ("CreateSignature failed: " ++ e)
      | .ok signature =>
          .ok (u.scheme ++ "://" ++ u.host ++ u.path ++ "?" ++ u.rawQuery ++ "&signature=" ++ signature)

/-- The repository of client keys: a finite map from client id to key,
modelled as an association list with distinct keys (Go's
`map[string]string`). -/
abbrev KeyRepository := List (String × String)

/-- Map lookup (`v, ok := m[k]`). -/
def mapFind (m : KeyRepository) (k : String) : Option String :=
  (m.find? (fun p => p.1 == k)).map (fun p => p.2)

/-- Map update (`m[k] = v`): overwrite in place when the key exists,
append otherwise. -/
def mapInsert (m : KeyRepository) (k v : String) : KeyRepository :=
  if m.any (fun p => p.1 == k) then m.map (fun p => if p.1 == k then (k, v) else p)
  else m ++ [(k, v)]

/-- The lines delivered by `bufio.Scanner` with the default `ScanLines`
split: split at every newline, strip one trailing carriage return from
each line, and do not deliver a final empty token after a trailing
newline. -/
def scanLines (s : String) : List String :=
  let raw := splitChar '\n' s.data
  let raw' := if raw.getLast? = some [] then raw.dropLast else raw
  raw'.map (fun l => String.mk (if l.getLast? = some '\r' then l.dropLast else l))

/-- The loop body of LoadKeyRepository over the scanned lines: skip empty
lines and lines starting with `#`, require exactly two fields when split
at single spaces, store last-write-wins (auth.go). -/
def loadLines : List String → KeyRepository → Except String KeyRepository
  | [], repo => .ok repo
  | line :: rest, repo =>
      if line.data.isEmpty ∨ line.data.head? = some '#' then loadLines rest repo
      else
        let fields := splitChar ' ' line.data
        if fields.length ≠ 2 then
          .error ("Every line must contains two fields separated by a space: " ++ line)
        else loadLines rest (mapInsert repo (String.mk (fields.getD 0 [])) (String.mk (fields.getD 1 [])))

/-- LoadKeyRepository loads client id and key pairs from a line-oriented
source (auth.go). -/
def LoadKeyRepository (src : String) : Except String KeyRepository :=
  loadLines (scanLines src) []

/-- The marker the signer appends and the authenticator truncates at. -/
def sigMarker : List Char := ['&', 's', 'i', 'g', 'n', 'a', 't', 'u', 'r', 'e', '=']

/-- Authenticate checks that the signature parameter of a request URL
matches the re-computed signature of everything before the last
`&signature=` under the key registered for the URL's `client`
parameter (auth.go). -/
def KeyRepository.Authenticate (c : KeyRepository) (rawUrl : String) : Except String (URL × Query) :=
  match CheckSignedUrl rawUrl with
  | .error e => .error ("CheckSignedUrl failed: " ++ e)
  | .ok (parsedUrl, values) =>
      match mapFind c ((getAll values "client").headD "") with
      | none => .error "Unknown client"
      | some key =>
          let attachedSignature := (getAll values "signature").headD ""
          match lastIndexOf rawUrl.data sigMarker with
          | none => .error "Cannot find &signature= in rawUrl"
          | some lastQuery =>
              match urlParse (String.mk (rawUrl.data.take lastQuery)) with
              | .error e => .error ("url.Parse failed: " ++ e)
              | .ok urlWithoutSignature =>
                  match CreateSignature urlWithoutSignature key with
                  | .error e => .error ("CreateSignature failed: " ++ e)
                  | .ok signature =>
                      if attachedSignature ≠ signature then
                        .error "Attached signature is not equal to computed signature"
                      else .ok (parsedUrl, values)

/-! ### Decidability of `Except` equality, and the test fixtures -/

instance {ε α : Type} [DecidableEq ε] [DecidableEq α] : DecidableEq (Except ε α)
  | .error e, .error f =>
      if h : e = f then .isTrue (by rw [h]) else .isFalse (by intro hh; cases hh; exact h rfl)
  | .error _, .ok _ => .isFalse (by intro hh; cases hh)
  | .ok _, .error _ => .isFalse (by intro hh; cases hh)
  | .ok a, .ok b =>
      if h : a = b then .isTrue (by rw [h]) else .isFalse (by intro hh; cases hh; exact h rfl)

/-- The reference URL of the test suite (auth_test.go). -/
def kUrl : String :=
  "http://maps.googleapis.com/maps/api/geocode/json?address=New+York&sensor=false&client=clientID"

/-- The reference key of the test suite (auth_test.go). -/
def kPrivateKey : String := "vNIXE0xscrmjlyV-12Nj_BvUPaw="

/-- The reference signature of the test suite (auth_test.go). -/
def kSignature : String := "KrU1TzVQM7Ur0i8i7K3huiw3MsA="

/-- The reference signed URL of the test suite (auth_test.go). -/
def kFullSignedUrl : String :=
  "http://maps.googleapis.com/maps/api/geocode/json?address=New+York&sensor=false&client=clientID&signature=KrU1TzVQM7Ur0i8i7K3huiw3MsA="

/-- A repository holding the reference client and key. -/
def kRepo : KeyRepository := [("clientID", kPrivateKey)]

/-- The parse of the reference URL. -/
def kUrlStruct : URL :=
  ⟨"http", "", "maps.googleapis.com", "/maps/api/geocode/json",
    "address=New+York&sensor=false&client=clientID", ""⟩

/-- The parsed query of the reference URL. -/
def kQuery : Query := [("address", "New York"), ("sensor", "false"), ("client", "clientID")]

/-- The bytes of the reference key. -/
def kKeyBytes : List Nat :=
  [188, 210, 23, 19, 76, 108, 114, 185, 163, 151, 37, 126, 215, 99, 99, 252, 27, 212, 61, 172]

/-- Split a character list at every character satisfying `p`, keeping
empty pieces. -/
def splitPred (p : Char → Bool) : List Char → List (List Char)
  | [] => [[]]
  | c :: rest =>
      match splitPred p rest with
      | [] => if p c then [[], []] else [[c]]
      | h :: t => if p c then [] :: h :: t else (c :: h) :: t

/-- Whether the character is Unicode-independent ASCII whitespace, as in
Go's `strings.Fields` for ASCII input. -/
def isSpaceChar (c : Char) : Bool :=
  c = ' ' ∨ c = '\t' ∨ c = '\n' ∨ c = '\x0b' ∨ c = '\x0c' ∨ c = '\r'

/-- Modelled from the spec: the claim for `LoadKeyRepository` speaks of
lines splitting "into exactly two whitespace-separated fields"; this is
that reading (the non-empty maximal runs between whitespace, as computed
by `strings.Fields`), to compare against the code's split at single space
characters. -/
def specWhitespaceFields (s : List Char) : List (List Char) :=
  (splitPred isSpaceChar s).filter (fun l => ¬ l.isEmpty)

/-- The reference signed URL with the final `=` of the signature value
percent-encoded as `%3D`: it percent-decodes to the same signature. -/
def kEscapedSignedUrl : String :=
  "http://maps.googleapis.com/maps/api/geocode/json?address=New+York&sensor=false&client=clientID&signature=KrU1TzVQM7Ur0i8i7K3huiw3MsA%3D"

/-- `kEscapedSignedUrl` with its last character `D` replaced by `d`. -/
def kEscapedSignedUrlLower : String :=
  "http://maps.googleapis.com/maps/api/geocode/json?address=New+York&sensor=false&client=clientID&signature=KrU1TzVQM7Ur0i8i7K3huiw3MsA%3d"

/-- A URL whose query carries the same `client` value twice. -/
def kDupClientRawUrl : String := "http://h/p?client=a&client=a"

/-- The result of signing `kDupClientRawUrl` with the empty key. -/
def kDupSignedUrl : String := "http://h/p?client=a&client=a&signature=FF8fMNoCbDTCVnAxGISD1UxEZh8="

/-- Characters of the URL-safe base64 alphabet together with padding. -/
def b64uChar (c : Char) : Bool := isAlphaNum c ∨ c = '-' ∨ c = '_' ∨ c = '='

/-- Lower-case ASCII letters (the scheme alphabet used in the round-trip
theorem; Go also allows digits, `+`, `-`, `.` after the first letter). -/
def lowerAlpha (c : Char) : Bool := 97 ≤ c.toNat ∧ c.toNat ≤ 122

/-- Hosts built from letters, digits, dots and dashes: they survive
net/url host parsing verbatim. -/
def hostSafeChar (c : Char) : Bool := isAlphaNum c ∨ c = '.' ∨ c = '-'

/-- Path characters that survive net/url path unescaping verbatim and do
not disturb the query or fragment cuts. -/
def pathSafeChar (c : Char) : Bool := ¬ (c = '?' ∨ c = '#' ∨ c = '%' ∨ isCTL c)

/-- Raw-query characters that keep the query cut of `url.Parse` stable. -/
def querySafeChar (c : Char) : Bool := ¬ (c = '?' ∨ c = '#' ∨ isCTL c)

/-- The characters of `signature=`, the tail of the marker. -/
def sigTail : List Char := ['s', 'i', 'g', 'n', 'a', 't', 'u', 'r', 'e', '=']

/-- A line that LoadKeyRepository does not reject: empty, comment, or
exactly two space-separated fields. -/
def goodLine (l : String) : Bool :=
  l.data.isEmpty ∨ l.data.head? = some '#' ∨ (splitChar ' ' l.data).length = 2

/-- The repository entry contributed by one line (`none` when skipped). -/
def lineEntry (l : String) : Option (String × String) :=
  if l.data.isEmpty ∨ l.data.head? = some '#' then none
  else
    match splitChar ' ' l.data with
    | [a, b] => some (String.mk a, String.mk b)
    | _ => none

/-- The reference signed URL with the last character of the signature
value changed from `=` to `x`. -/
def kFlippedSignedUrl : String :=
  "http://maps.googleapis.com/maps/api/geocode/json?address=New+York&sensor=false&client=clientID&signature=KrU1TzVQM7Ur0i8i7K3huiw3MsAx"

/-- The parse of the flipped signed URL. -/
def kFlippedStruct : URL :=
  ⟨"http", "", "maps.googleapis.com", "/maps/api/geocode/json",
    "address=New+York&sensor=false&client=clientID&signature=KrU1TzVQM7Ur0i8i7K3huiw3MsAx", ""⟩

/-- The parsed query of the flipped signed URL. -/
def kFlippedQuery : Query :=
  [("address", "New York"), ("sensor", "false"), ("client", "clientID"),
    ("signature", "KrU1TzVQM7Ur0i8i7K3huiw3MsAx")]

/-- The parse of the reference signed URL. -/
def kFullStruct : URL :=
  ⟨"http", "", "maps.googleapis.com", "/maps/api/geocode/json",
    "address=New+York&sensor=false&client=clientID&signature=KrU1TzVQM7Ur0i8i7K3huiw3MsA=", ""⟩

/-- The parsed query of the reference signed URL. -/
def kFullQuery : Query :=
  [("address", "New York"), ("sensor", "false"), ("client", "clientID"),
    ("signature", "KrU1TzVQM7Ur0i8i7K3huiw3MsA=")]

end Bizapi

namespace Bizapi

/-! ### Helper lemmas: characters, splitting, cutting, searching -/

/-- A character satisfying a Boolean class cannot equal a character the
class rejects. -/
theorem ne_of_classBool {P : Char → Bool} {x : Char} (hx : P x = false) {c : Char}
    (hc : P c = true) : c ≠ x := by
  intro heq
  subst heq
  rw [hc] at hx
  cases hx

theorem data_append (a b : String) : (a ++ b).data = a.data ++ b.data := rfl

theorem mk_data (s : String) : String.mk s.data = s := rfl

theorem splitChar_ne_nil (sep : Char) (l : List Char) : splitChar sep l ≠ [] := by
  cases l with
  | nil => simp [splitChar]
  | cons c rest =>
      cases h : splitChar sep rest with
      | nil => simp [splitChar, h]; split <;> simp
      | cons a t => simp [splitChar, h]; split <;> simp

theorem splitChar_append (sep : Char) (a b : List Char) :
    splitChar sep (a ++ sep :: b) = splitChar sep a ++ splitChar sep b := by
  induction a with
  | nil =>
      cases h : splitChar sep b with
      | nil => exact absurd h (splitChar_ne_nil sep b)
      | cons x t =>
          simp only [List.nil_append, splitChar, h]
          simp
  | cons c a ih =>
      cases h2 : splitChar sep a with
      | nil => exact absurd h2 (splitChar_ne_nil sep a)
      | cons y u =>
          have hL : splitChar sep (a ++ sep :: b) = y :: (u ++ splitChar sep b) := by
            rw [ih, h2, List.cons_append]
          rw [List.cons_append, splitChar, hL, splitChar, h2]
          by_cases hc : c = sep
          · simp [hc]
          · simp [hc]

theorem splitChar_no_sep (sep : Char) (l : List Char) (h : ∀ c ∈ l, c ≠ sep) :
    splitChar sep l = [l] := by
  induction l with
  | nil => rfl
  | cons c rest ih =>
      have hc : c ≠ sep := h c (List.mem_cons_self c rest)
      rw [splitChar, ih (fun x hx => h x (List.mem_cons_of_mem c hx))]
      simp [hc]

theorem cutChar_not_mem (sep : Char) (a : List Char) (h : ∀ x ∈ a, x ≠ sep) :
    cutChar sep a = (a, []) := by
  induction a with
  | nil => rfl
  | cons c rest ih =>
      have hc : c ≠ sep := h c (List.mem_cons_self c rest)
      have h' := ih (fun x hx => h x (List.mem_cons_of_mem c hx))
      rw [cutChar, if_neg hc, h']

theorem cutChar_append (sep : Char) (a b : List Char) (h : ∀ x ∈ a, x ≠ sep) :
    cutChar sep (a ++ sep :: b) = (a, b) := by
  induction a with
  | nil => simp [cutChar]
  | cons c rest ih =>
      have hc : c ≠ sep := h c (List.mem_cons_self c rest)
      have h' := ih (fun x hx => h x (List.mem_cons_of_mem c hx))
      rw [List.cons_append, cutChar, if_neg hc, h']

theorem isPrefixOf_singleton (c : Char) (l : List Char) :
    [c].isPrefixOf l = true ↔ l.head? = some c := by
  cases l with
  | nil =>
      rw [List.isPrefixOf_cons_nil]
      simp
  | cons x t =>
      rw [List.isPrefixOf_cons₂, List.isPrefixOf_nil_left, Bool.and_true]
      simp only [beq_iff_eq, List.head?_cons, Option.some.injEq]
      exact eq_comm

theorem idxOf_not_mem_single (c : Char) (s : List Char) (h : ∀ x ∈ s, x ≠ c) :
    idxOf s [c] = none := by
  induction s with
  | nil =>
      rw [idxOf, if_neg (by rw [List.isPrefixOf_cons_nil]; simp)]
  | cons x t ih =>
      have hx : x ≠ c := h x (List.mem_cons_self x t)
      have hp : ¬ ([c].isPrefixOf (x :: t) = true) := by
        rw [isPrefixOf_singleton]
        simp [hx]
      rw [idxOf, if_neg hp, ih (fun y hy => h y (List.mem_cons_of_mem x hy))]
      rfl

theorem idxOf_append_single (c : Char) (a b : List Char) (h : ∀ x ∈ a, x ≠ c) :
    idxOf (a ++ c :: b) [c] = some a.length := by
  induction a with
  | nil =>
      have hp : [c].isPrefixOf (c :: b) = true := by
        rw [isPrefixOf_singleton]
        rfl
      rw [List.nil_append, idxOf, if_pos hp]
      rfl
  | cons x t ih =>
      have hx : x ≠ c := h x (List.mem_cons_self x t)
      have hp : ¬ ([c].isPrefixOf (x :: (t ++ c :: b)) = true) := by
        rw [isPrefixOf_singleton]
        simp [hx]
      rw [List.cons_append, idxOf, if_neg hp,
        ih (fun y hy => h y (List.mem_cons_of_mem x hy))]
      rfl

theorem lastIdxFrom_eq_some (s pat : List Char) (i : Nat)
    (hi : pat.isPrefixOf (s.drop i) = true)
    (hmax : ∀ j, i < j → ¬ (pat.isPrefixOf (s.drop j) = true)) :
    ∀ n, i ≤ n → lastIdxFrom s pat n = some i := by
  intro n
  induction n with
  | zero =>
      intro hn
      have hz : i = 0 := Nat.le_zero.mp hn
      subst hz
      rw [lastIdxFrom]
      simp only [List.drop_zero] at hi
      simp [hi]
  | succ n ih =>
      intro hn
      rw [lastIdxFrom]
      by_cases hin : i = n + 1
      · subst hin
        simp [hi]
      · have h1 : i ≤ n := by omega
        have h2 := hmax (n + 1) (by omega)
        simp [h2, ih h1]

theorem head?_of_isPrefixOf {pat l : List Char} (h : pat.isPrefixOf l = true) (hne : pat ≠ []) :
    l.head? = pat.head? := by
  cases pat with
  | nil => exact absurd rfl hne
  | cons p ps =>
      cases l with
      | nil => simp [List.isPrefixOf] at h
      | cons x xs =>
          simp only [List.isPrefixOf, Bool.and_eq_true, beq_iff_eq] at h
          simp [h.1]

theorem lastIndexOf_append_marker (A S : List Char) (hS : ∀ c ∈ S, c ≠ '&') :
    lastIndexOf (A ++ sigMarker ++ S) sigMarker = some A.length := by
  have hassoc : A ++ sigMarker ++ S = A ++ (sigMarker ++ S) := by
    rw [List.append_assoc]
  rw [hassoc]
  have hi : sigMarker.isPrefixOf ((A ++ (sigMarker ++ S)).drop A.length) = true := by
    rw [List.drop_left]
    rw [List.isPrefixOf_iff_prefix]
    exact List.prefix_append sigMarker S
  have hmax : ∀ j, A.length < j →
      ¬ (sigMarker.isPrefixOf ((A ++ (sigMarker ++ S)).drop j) = true) := by
    intro j hj hpre
    obtain ⟨d, hd, rfl⟩ : ∃ d, 1 ≤ d ∧ j = A.length + d :=
      ⟨j - A.length, by omega, by omega⟩
    rw [List.drop_append] at hpre
    have hhead := head?_of_isPrefixOf hpre (by simp [sigMarker])
    rw [List.head?_drop] at hhead
    have hm : (sigMarker ++ S)[d]? = some '&' := by
      rw [hhead]
      rfl
    by_cases hdlen : d < sigMarker.length
    · rw [List.getElem?_append_left hdlen] at hm
      have hd11 : d < 11 := by simpa [sigMarker] using hdlen
      interval_cases d <;> simp [sigMarker] at hm
    · rw [List.getElem?_append_right (by omega)] at hm
      have hmem := List.getElem?_mem hm
      exact hS _ hmem rfl
  exact lastIdxFrom_eq_some _ _ _ hi hmax _ (by simp)

theorem getAll_append (q1 q2 : Query) (k : String) :
    getAll (q1 ++ q2) k = getAll q1 k ++ getAll q2 k := by
  simp [getAll, List.filter_append]

theorem getAll_eq_nil_of_not_hasKey (q : Query) (k : String) (h : hasKey q k = false) :
    getAll q k = [] := by
  simp only [hasKey, List.any_eq_false, decide_eq_true_eq] at h
  simp only [getAll, List.map_eq_nil, List.filter_eq_nil]
  intro p hp
  simpa using h p hp

theorem hasKey_of_getAll_cons (q : Query) (k v : String) (rest : List String)
    (h : getAll q k = v :: rest) : hasKey q k = true := by
  by_cases hk : hasKey q k = true
  · exact hk
  · rw [getAll_eq_nil_of_not_hasKey q k (by simpa using hk)] at h
    cases h

theorem eq_singleton_headD (l : List String) (h : l.length = 1) : l = [l.headD ""] := by
  cases l with
  | nil => simp at h
  | cons a t =>
      cases t with
      | nil => rfl
      | cons b u => simp at h

theorem unescape_query_id (l : List Char) (h : ∀ c ∈ l, c ≠ '%' ∧ c ≠ '+') :
    unescape .query l = .ok l := by
  induction l with
  | nil => rfl
  | cons c rest ih =>
      obtain ⟨h1, h2⟩ := h c (List.mem_cons_self c rest)
      have ih' := ih (fun x hx => h x (List.mem_cons_of_mem c hx))
      cases rest with
      | nil =>
          rw [unescape]
          · rw [if_neg h1, if_neg h2, if_neg (by simp)]
            rfl
          · intro a b rest' hh
            cases hh
      | cons a rest2 =>
          cases rest2 with
          | nil =>
              rw [unescape]
              · rw [if_neg h1, if_neg h2, if_neg (by simp), ih']
              · intro x y rest' hh
                cases hh
          | cons b rest' =>
              rw [unescape, if_neg h1, if_neg h2, if_neg (by simp), ih']

theorem unescape_path_id (l : List Char) (h : ∀ c ∈ l, c ≠ '%') :
    unescape .path l = .ok l := by
  induction l with
  | nil => rfl
  | cons c rest ih =>
      have h1 : c ≠ '%' := h c (List.mem_cons_self c rest)
      have ih' := ih (fun x hx => h x (List.mem_cons_of_mem c hx))
      have step : ∀ rest2 : List Char, unescape .path rest2 = .ok rest2 →
          unescape .path (c :: rest2) = .ok (c :: rest2) := by
        intro rest2 hr2
        by_cases h2 : c = '+'
        · subst h2
          cases rest2 with
          | nil =>
              rw [unescape]
              · rw [if_neg (by decide), if_pos rfl, hr2]
                rw [if_neg (by decide)]
              · intro a b rest' hh
                cases hh
          | cons a rest3 =>
              cases rest3 with
              | nil =>
                  rw [unescape]
                  · rw [if_neg (by decide), if_pos rfl, hr2]
                    rw [if_neg (by decide)]
                  · intro x y rest' hh
                    cases hh
              | cons b rest' =>
                  rw [unescape, if_neg (by decide), if_pos rfl, hr2]
                  rw [if_neg (by decide)]
        · cases rest2 with
          | nil =>
              rw [unescape]
              · rw [if_neg h1, if_neg h2, if_neg (by simp)]
                rfl
              · intro a b rest' hh
                cases hh
          | cons a rest3 =>
              cases rest3 with
              | nil =>
                  rw [unescape]
                  · rw [if_neg h1, if_neg h2, if_neg (by simp), hr2]
                  · intro x y rest' hh
                    cases hh
              | cons b rest' =>
                  rw [unescape, if_neg h1, if_neg h2, if_neg (by simp), hr2]
      exact step rest ih'

theorem hostSafe_not_shouldEscape (c : Char) (h : hostSafeChar c = true) :
    shouldEscapeHost c = false := by
  simp only [hostSafeChar, Bool.or_eq_true, decide_eq_true_eq] at h
  rcases h with h | h | h
  · simp [shouldEscapeHost, h]
  · subst h; decide
  · subst h; decide

theorem unescape_host_id (l : List Char) (h : ∀ c ∈ l, hostSafeChar c = true) :
    unescape .host l = .ok l := by
  induction l with
  | nil => rfl
  | cons c rest ih =>
      have hc := h c (List.mem_cons_self c rest)
      have h1 : c ≠ '%' := ne_of_classBool (by decide) hc
      have h2 : c ≠ '+' := ne_of_classBool (by decide) hc
      have h3 := hostSafe_not_shouldEscape c hc
      have ih' := ih (fun x hx => h x (List.mem_cons_of_mem c hx))
      cases rest with
      | nil =>
          rw [unescape]
          · rw [if_neg h1, if_neg h2, if_neg (by simp [h3])]
            rfl
          · intro a b rest' hh
            cases hh
      | cons a rest2 =>
          cases rest2 with
          | nil =>
              rw [unescape]
              · rw [if_neg h1, if_neg h2, if_neg (by simp [h3]), ih']
              · intro x y rest' hh
                cases hh
          | cons b rest' =>
              rw [unescape, if_neg h1, if_neg h2, if_neg (by simp [h3]), ih']

theorem parsePieces_append (ps qs : List (List Char)) :
    parsePieces (ps ++ qs) =
      (parsePieces ps).bind (fun a => (parsePieces qs).bind (fun b => .ok (a ++ b))) := by
  induction ps with
  | nil =>
      simp only [List.nil_append, parsePieces]
      cases h : parsePieces qs <;> simp [Except.bind]
  | cons p ps ih =>
      by_cases h1 : p.contains ';'
      · simp only [List.cons_append, parsePieces, h1, if_true]
        rfl
      · by_cases h2 : p.isEmpty
        · simp only [List.cons_append, parsePieces, h1, h2, if_true, Bool.false_eq_true,
            if_false]
          exact ih
        · rcases hcut : cutChar '=' p with ⟨k, v⟩
          cases hk : unescape .query k with
          | error e =>
              simp only [List.cons_append, parsePieces, h1, h2, hcut, hk, Bool.false_eq_true,
                if_false]
              rfl
          | ok k' =>
              cases hv : unescape .query v with
              | error e =>
                  simp only [List.cons_append, parsePieces, h1, h2, hcut, hk, hv,
                    Bool.false_eq_true, if_false]
                  rfl
              | ok v' =>
                  simp only [List.cons_append, parsePieces, h1, h2, hcut, hk, hv,
                    Bool.false_eq_true, if_false, List.append_eq]
                  rw [ih]
                  cases hps : parsePieces ps <;> cases hqs : parsePieces qs <;>
                    simp [hps, hqs, Except.bind]

theorem b64Char_class (n : Nat) :
    isAlphaNum (b64Char n) = true ∨ b64Char n = '+' ∨ b64Char n = '/' := by
  by_cases hn : n < 64
  · interval_cases n <;> decide
  · have hlen : b64Table.length ≤ n := by
      have : b64Table.length = 64 := by decide
      omega
    unfold b64Char
    rw [List.getD_eq_default _ _ hlen]
    decide

theorem encodeStdB64_class : ∀ (bs : List Nat), ∀ c ∈ encodeStdB64 bs,
    isAlphaNum c = true ∨ c = '+' ∨ c = '/' ∨ c = '=' := by
  have H : ∀ (k : Nat) (bs : List Nat), bs.length ≤ k → ∀ c ∈ encodeStdB64 bs,
      isAlphaNum c = true ∨ c = '+' ∨ c = '/' ∨ c = '=' := by
    intro k
    induction k with
    | zero =>
        intro bs hb c hc
        cases bs with
        | nil => simp [encodeStdB64] at hc
        | cons a t => simp at hb
    | succ k ih =>
        intro bs hb c hc
        match bs with
        | [] => simp [encodeStdB64] at hc
        | [a] =>
            simp only [encodeStdB64, List.mem_cons, List.mem_singleton,
              List.not_mem_nil, or_false] at hc
            rcases hc with h | h | h | h
            · rcases b64Char_class (a / 4) with h' | h' | h' <;> rw [h] <;> simp [h']
            · rcases b64Char_class (a % 4 * 16) with h' | h' | h' <;> rw [h] <;> simp [h']
            · simp [h]
            · simp [h]
        | [a, b] =>
            simp only [encodeStdB64, List.mem_cons, List.mem_singleton,
              List.not_mem_nil, or_false] at hc
            rcases hc with h | h | h | h
            · rcases b64Char_class (a / 4) with h' | h' | h' <;> rw [h] <;> simp [h']
            · rcases b64Char_class (a % 4 * 16 + b / 16) with h' | h' | h' <;> rw [h] <;> simp [h']
            · rcases b64Char_class (b % 16 * 4) with h' | h' | h' <;> rw [h] <;> simp [h']
            · simp [h]
        | a :: b :: d :: rest =>
            simp only [encodeStdB64, List.mem_cons, List.mem_singleton,
              List.not_mem_nil, or_false] at hc
            rcases hc with h | h | h | h | h
            · rcases b64Char_class (a / 4) with h' | h' | h' <;> rw [h] <;> simp [h']
            · rcases b64Char_class (a % 4 * 16 + b / 16) with h' | h' | h' <;> rw [h] <;> simp [h']
            · rcases b64Char_class (b % 16 * 4 + d / 64) with h' | h' | h' <;> rw [h] <;> simp [h']
            · rcases b64Char_class (d % 64) with h' | h' | h' <;> rw [h] <;> simp [h']
            · exact ih rest (by simp at hb; omega) c h
  exact fun bs => H bs.length bs (Nat.le_refl _)

theorem encodeUrlSafe_b64u (bs : List Nat) :
    ∀ c ∈ (EncodeUrlSafeBase64 bs).data, b64uChar c = true := by
  intro c hc
  unfold EncodeUrlSafeBase64 at hc
  obtain ⟨x, hx, rfl⟩ := List.mem_map.mp hc
  rcases encodeStdB64_class bs x hx with h | h | h | h
  · have hx1 : x ≠ '+' := ne_of_classBool (P := isAlphaNum) (by decide) h
    have hx2 : x ≠ '/' := ne_of_classBool (P := isAlphaNum) (by decide) h
    simp [hx1, hx2, b64uChar, h]
  · subst h; decide
  · subst h; decide
  · subst h; decide

theorem parsePieces_sig_piece (sig : List Char) (hsig : ∀ c ∈ sig, b64uChar c = true) :
    parsePieces [sigTail ++ sig] = .ok [("signature", String.mk sig)] := by
  have hnosemi : ∀ c ∈ sigTail ++ sig, c ≠ ';' := by
    intro c hc
    rcases List.mem_append.mp hc with h | h
    · fin_cases h <;> decide
    · exact ne_of_classBool (by decide) (hsig c h)
  have hcontains : (sigTail ++ sig).contains ';' = false := by
    rw [List.contains_eq_any_beq, List.any_eq_false]
    intro c hc
    simp only [beq_iff_eq]
    exact fun hh => hnosemi c hc hh.symm
  have hsplit : sigTail ++ sig = ('s' :: 'i' :: 'g' :: 'n' :: 'a' :: 't' :: 'u' :: 'r' :: 'e' :: []) ++ '=' :: sig := by
    simp [sigTail]
  rw [parsePieces]
  rw [hcontains]
  have hne : (sigTail ++ sig).isEmpty = false := by simp [sigTail]
  rw [hne]
  simp only [Bool.false_eq_true, if_false]
  rw [hsplit, cutChar_append '=' _ _ (by intro x hx; fin_cases hx <;> decide)]
  have h1 : unescape .query ('s' :: 'i' :: 'g' :: 'n' :: 'a' :: 't' :: 'u' :: 'r' :: 'e' :: []) =
      .ok ('s' :: 'i' :: 'g' :: 'n' :: 'a' :: 't' :: 'u' :: 'r' :: 'e' :: []) := by decide
  have h2 : unescape .query sig = .ok sig :=
    unescape_query_id sig (fun c hc =>
      ⟨ne_of_classBool (by decide) (hsig c hc), ne_of_classBool (by decide) (hsig c hc)⟩)
  rw [h1, h2]
  rfl

theorem getSchemeAux_lower (orig rest : List Char) :
    ∀ (sc acc : List Char), (∀ c ∈ sc, lowerAlpha c = true) → acc ++ sc ≠ [] →
    getSchemeAux orig (sc ++ ':' :: rest) acc = .ok (acc ++ sc, rest) := by
  intro sc
  induction sc with
  | nil =>
      intro acc h hne
      have hacc : acc.isEmpty = false := by
        simp only [List.append_nil] at hne
        simpa [List.isEmpty_iff] using hne
      rw [List.nil_append, getSchemeAux]
      rw [if_neg (by decide), if_neg (by decide), if_pos rfl, hacc]
      simp
  | cons c sc ih =>
      intro acc h hne
      have hc : 97 ≤ c.toNat ∧ c.toNat ≤ 122 := by
        simpa [lowerAlpha] using h c (List.mem_cons_self c sc)
      rw [List.cons_append, getSchemeAux, if_pos (Or.inl hc)]
      rw [ih (acc ++ [c]) (fun x hx => h x (List.mem_cons_of_mem c hx)) (by simp)]
      simp

theorem lastIdxFrom_none (s pat : List Char)
    (h : ∀ j, ¬ (pat.isPrefixOf (s.drop j) = true)) : ∀ n, lastIdxFrom s pat n = none := by
  intro n
  induction n with
  | zero =>
      rw [lastIdxFrom]
      have h0 := h 0
      rw [List.drop_zero] at h0
      simp [h0]
  | succ n ih =>
      rw [lastIdxFrom]
      simp [h (n + 1), ih]

theorem lastIndexOf_single_none (c : Char) (s : List Char) (h : ∀ x ∈ s, x ≠ c) :
    lastIndexOf s [c] = none := by
  apply lastIdxFrom_none
  intro j hp
  rw [isPrefixOf_singleton] at hp
  rw [List.head?_drop] at hp
  exact h _ (List.getElem?_mem hp) rfl

theorem head?_ne_of_class {P : Char → Bool} {x : Char} (hx : P x = false) (l : List Char)
    (h : ∀ c ∈ l, P c = true) : l.head? ≠ some x := by
  cases l with
  | nil => simp
  | cons a t =>
      simp only [List.head?_cons, ne_eq, Option.some.injEq]
      exact ne_of_classBool hx (h a (List.mem_cons_self a t))

theorem parseHost_simple (l : List Char) (h : ∀ c ∈ l, hostSafeChar c = true) :
    parseHost l = .ok l := by
  unfold parseHost
  rw [if_neg (by simpa using head?_ne_of_class (by decide) l h)]
  rw [lastIndexOf_single_none ':' l (fun x hx => ne_of_classBool (by decide) (h x hx))]
  exact unescape_host_id l h

theorem parseAuthority_simple (l : List Char) (h : ∀ c ∈ l, hostSafeChar c = true) :
    parseAuthority l = .ok l := by
  unfold parseAuthority
  rw [lastIndexOf_single_none '@' l (fun x hx => ne_of_classBool (by decide) (h x hx))]
  exact parseHost_simple l h

theorem lowerAlpha_not_ctl (c : Char) (h : lowerAlpha c = true) : isCTL c = false := by
  simp only [lowerAlpha, Bool.decide_and, Bool.and_eq_true, decide_eq_true_eq] at h
  simp only [isCTL, Bool.decide_or, Bool.or_eq_false_iff, decide_eq_false_iff_not]
  omega

theorem hostSafe_not_ctl (c : Char) (h : hostSafeChar c = true) : isCTL c = false := by
  simp only [hostSafeChar, isAlphaNum, Bool.or_eq_true, Bool.decide_and, Bool.and_eq_true,
    decide_eq_true_eq] at h
  simp only [isCTL, Bool.decide_or, Bool.or_eq_false_iff, decide_eq_false_iff_not]
  rcases h with (h | h | h) | h | h
  · omega
  · omega
  · omega
  · subst h; decide
  · subst h; decide

theorem pathSafe_props (c : Char) (h : pathSafeChar c = true) :
    c ≠ '?' ∧ c ≠ '#' ∧ c ≠ '%' ∧ isCTL c = false := by
  constructor
  · exact ne_of_classBool (P := pathSafeChar) (by decide) h
  constructor
  · exact ne_of_classBool (P := pathSafeChar) (by decide) h
  constructor
  · exact ne_of_classBool (P := pathSafeChar) (by decide) h
  · by_cases hc : isCTL c = true
    · exfalso
      have : pathSafeChar c = false := by
        simp [pathSafeChar, hc]
      rw [h] at this
      cases this
    · simpa using hc

theorem querySafe_props (c : Char) (h : querySafeChar c = true) :
    c ≠ '?' ∧ c ≠ '#' ∧ isCTL c = false := by
  constructor
  · exact ne_of_classBool (P := querySafeChar) (by decide) h
  constructor
  · exact ne_of_classBool (P := querySafeChar) (by decide) h
  · by_cases hc : isCTL c = true
    · exfalso
      have : querySafeChar c = false := by
        simp [querySafeChar, hc]
      rw [h] at this
      cases this
    · simpa using hc

theorem toLowerChar_id_of_lower (c : Char) (h : lowerAlpha c = true) : toLowerChar c = c := by
  simp only [lowerAlpha, Bool.decide_and, Bool.and_eq_true, decide_eq_true_eq] at h
  unfold toLowerChar
  rw [if_neg (by omega)]

theorem lowerAlpha_props (c : Char) (h : lowerAlpha c = true) :
    c ≠ '#' ∧ c ≠ '?' ∧ c ≠ ':' ∧ c ≠ '/' := by
  refine ⟨?_, ?_, ?_, ?_⟩ <;> exact ne_of_classBool (P := lowerAlpha) (by decide) h

theorem hostSafe_props (c : Char) (h : hostSafeChar c = true) :
    c ≠ '#' ∧ c ≠ '?' ∧ c ≠ '/' ∧ c ≠ '@' ∧ c ≠ ':' ∧ c ≠ '[' ∧ c ≠ '&' := by
  refine ⟨?_, ?_, ?_, ?_, ?_, ?_, ?_⟩ <;> exact ne_of_classBool (P := hostSafeChar) (by decide) h

theorem urlParse_constructed (sc hh pp qq : List Char)
    (hsc1 : sc ≠ []) (hsc2 : ∀ c ∈ sc, lowerAlpha c = true)
    (hh2 : ∀ c ∈ hh, hostSafeChar c = true)
    (hp1 : pp = [] ∨ pp.head? = some '/')
    (hp2 : ∀ c ∈ pp, pathSafeChar c = true)
    (hq0 : qq ≠ []) (hq1 : ∀ c ∈ qq, querySafeChar c = true) :
    urlParse (String.mk (sc ++ ':' :: '/' :: '/' :: ((hh ++ pp) ++ '?' :: qq))) =
      .ok ⟨String.mk sc, "", String.mk hh, String.mk pp, String.mk qq, ""⟩ := by
  have hmem : ∀ x ∈ sc ++ ':' :: '/' :: '/' :: ((hh ++ pp) ++ '?' :: qq),
      x ∈ sc ∨ x = ':' ∨ x = '/' ∨ x ∈ hh ∨ x ∈ pp ∨ x = '?' ∨ x ∈ qq := by
    intro x hx
    simp only [List.mem_append, List.mem_cons] at hx
    tauto
  have hnohash : ∀ x ∈ sc ++ ':' :: '/' :: '/' :: ((hh ++ pp) ++ '?' :: qq), x ≠ '#' := by
    intro x hx
    rcases hmem x hx with h | h | h | h | h | h | h
    · exact (lowerAlpha_props x (hsc2 x h)).1
    · subst h; decide
    · subst h; decide
    · exact (hostSafe_props x (hh2 x h)).1
    · exact (pathSafe_props x (hp2 x h)).2.1
    · subst h; decide
    · exact (querySafe_props x (hq1 x h)).2.1
  have hnoctl : ∀ x ∈ sc ++ ':' :: '/' :: '/' :: ((hh ++ pp) ++ '?' :: qq), isCTL x = false := by
    intro x hx
    rcases hmem x hx with h | h | h | h | h | h | h
    · exact lowerAlpha_not_ctl x (hsc2 x h)
    · subst h; decide
    · subst h; decide
    · exact hostSafe_not_ctl x (hh2 x h)
    · exact (pathSafe_props x (hp2 x h)).2.2.2
    · subst h; decide
    · exact (querySafe_props x (hq1 x h)).2.2
  have hfrag : cutChar '#' (sc ++ ':' :: '/' :: '/' :: ((hh ++ pp) ++ '?' :: qq)) =
      (sc ++ ':' :: '/' :: '/' :: ((hh ++ pp) ++ '?' :: qq), []) :=
    cutChar_not_mem '#' _ hnohash
  have hgs : getScheme (sc ++ ':' :: '/' :: '/' :: ((hh ++ pp) ++ '?' :: qq)) =
      .ok (sc, '/' :: '/' :: ((hh ++ pp) ++ '?' :: qq)) := by
    unfold getScheme
    have := getSchemeAux_lower (sc ++ ':' :: '/' :: '/' :: ((hh ++ pp) ++ '?' :: qq))
      ('/' :: '/' :: ((hh ++ pp) ++ '?' :: qq)) sc [] hsc2 (by simpa using hsc1)
    simpa using this
  have hforce : ¬(('/' :: '/' :: ((hh ++ pp) ++ '?' :: qq)).getLast? = some '?' ∧
      ¬ (('/' :: '/' :: ((hh ++ pp) ++ '?' :: qq)).dropLast.contains '?')) := by
    rintro ⟨hlast, -⟩
    obtain ⟨c0, qq', rfl⟩ : ∃ c0 qq', qq = c0 :: qq' := by
      cases qq with
      | nil => exact absurd rfl hq0
      | cons c0 qq' => exact ⟨c0, qq', rfl⟩
    rw [show '/' :: '/' :: ((hh ++ pp) ++ '?' :: c0 :: qq') =
      ('/' :: '/' :: (hh ++ pp)) ++ '?' :: c0 :: qq' from by simp] at hlast
    rw [List.getLast?_append, List.getLast?_cons_cons] at hlast
    cases hq2 : (c0 :: qq').getLast? with
    | none => simp [List.getLast?_eq_none_iff] at hq2
    | some y =>
        rw [hq2, Option.or_some] at hlast
        have hy : y ∈ c0 :: qq' := List.mem_of_getLast?_eq_some hq2
        rw [Option.some.injEq] at hlast
        subst hlast
        exact (querySafe_props '?' (hq1 '?' hy)).1 rfl
  have hcut : cutChar '?' ('/' :: '/' :: ((hh ++ pp) ++ '?' :: qq)) =
      ('/' :: '/' :: (hh ++ pp), qq) := by
    have hshape : '/' :: '/' :: ((hh ++ pp) ++ '?' :: qq) =
        ('/' :: '/' :: (hh ++ pp)) ++ '?' :: qq := by simp
    rw [hshape]
    apply cutChar_append
    intro x hx
    simp only [List.mem_cons, List.mem_append] at hx
    rcases hx with rfl | rfl | h | h
    · decide
    · decide
    · exact (hostSafe_props x (hh2 x h)).2.1
    · exact (pathSafe_props x (hp2 x h)).1
  have hauth := parseAuthority_simple hh hh2
  unfold urlParse
  have hdata : (String.mk (sc ++ ':' :: '/' :: '/' :: ((hh ++ pp) ++ '?' :: qq))).data =
      sc ++ ':' :: '/' :: '/' :: ((hh ++ pp) ++ '?' :: qq) := rfl
  have hpa : parseAfterFragment (sc ++ ':' :: '/' :: '/' :: ((hh ++ pp) ++ '?' :: qq)) =
      .ok ⟨String.mk sc, "", String.mk hh, String.mk pp, String.mk qq, ""⟩ := by
    unfold parseAfterFragment
    rw [if_neg (by
      rw [Bool.not_eq_true, List.any_eq_false]
      intro x hx
      simp [hnoctl x hx])]
    rw [if_neg (by
      intro heq
      have hlen := congrArg List.length heq
      have hsclen : 0 < sc.length := List.length_pos.mpr hsc1
      simp [List.length_append] at hlen
      omega)]
    rw [hgs]
    simp only []
    rw [if_neg hforce, hcut]
    simp only []
    rw [if_neg (by simp)]
    rw [if_pos ⟨Or.inl hsc1, by
      rw [List.isPrefixOf_cons₂, List.isPrefixOf_cons₂, List.isPrefixOf_nil_left]
      simp⟩]
    simp only [List.drop_succ_cons, List.drop_zero]
    rcases hp1 with hpnil | hphead
    · subst hpnil
      have hidx : idxOf (hh ++ []) ['/'] = none := by
        rw [List.append_nil]
        exact idxOf_not_mem_single '/' hh
          (fun x hx => (hostSafe_props x (hh2 x hx)).2.2.1)
      rw [hidx]
      simp only [List.append_nil]
      rw [hauth]
      have hmap : sc.map toLowerChar = sc := by
        have := List.map_congr_left (fun c hc => toLowerChar_id_of_lower c (hsc2 c hc))
        simpa using this
      simp only [unescape]
      rw [hmap]
    · obtain ⟨pp', rfl⟩ : ∃ pp', pp = '/' :: pp' := by
        cases pp with
        | nil => simp at hphead
        | cons c0 pp' =>
            simp only [List.head?_cons, Option.some.injEq] at hphead
            exact ⟨pp', by rw [hphead]⟩
      have hidx : idxOf (hh ++ '/' :: pp') ['/'] = some hh.length :=
        idxOf_append_single '/' hh pp'
          (fun x hx => (hostSafe_props x (hh2 x hx)).2.2.1)
      rw [hidx]
      simp only [List.take_left, List.drop_left]
      rw [hauth]
      rw [unescape_path_id ('/' :: pp') (fun x hx => (pathSafe_props x (hp2 x hx)).2.2.1)]
      have hmap : sc.map toLowerChar = sc := by
        have := List.map_congr_left (fun c hc => toLowerChar_id_of_lower c (hsc2 c hc))
        simpa using this
      rw [hmap]
  simp only [hfrag, hpa, List.isEmpty_nil, if_true]

theorem data_mk (l : List Char) : (String.mk l).data = l := rfl

theorem b64u_querySafe (c : Char) (h : b64uChar c = true) :
    querySafeChar c = true ∧ c ≠ '&' := by
  refine ⟨?_, ne_of_classBool (P := b64uChar) (by decide) h⟩
  have h1 : c ≠ '?' := ne_of_classBool (P := b64uChar) (by decide) h
  have h2 : c ≠ '#' := ne_of_classBool (P := b64uChar) (by decide) h
  have h3 : isCTL c = false := by
    simp only [b64uChar, isAlphaNum, Bool.or_eq_true, Bool.decide_and, Bool.and_eq_true,
      decide_eq_true_eq] at h
    simp only [isCTL, Bool.decide_or, Bool.or_eq_false_iff, decide_eq_false_iff_not]
    rcases h with (h | h | h) | h | h | h
    · omega
    · omega
    · omega
    · subst h; decide
    · subst h; decide
    · subst h; decide
  simp only [querySafeChar, decide_eq_true_eq]
  intro hor
  rcases hor with rfl | rfl | hc
  · exact h1 rfl
  · exact h2 rfl
  · rw [h3] at hc; cases hc

/-! ### Claim theorems -/

/-- Claim C1: for every URL whose raw query parses with a `client`
parameter and no `signature` parameter, and every key that URL-safe-base64
decodes to bytes `kb`, CreateSignature succeeds and returns exactly the
URL-safe base64 encoding of the HMAC-SHA1 digest, keyed with `kb`, of
`path + "?" + rawQuery`, with the raw query used verbatim. -/
theorem createSignature_is_hmac_of_raw_query (u : URL) (key : String) (q : Query) (kb : List Nat)
    (hq : ParseQuery u.rawQuery = .ok q)
    (hc : hasKey q "client" = true)
    (hs : hasKey q "signature" = false)
    (hk : DecodeUrlSafeBase64 key = .ok kb) :
    CreateSignature u key =
      .ok (EncodeUrlSafeBase64 (hmacSha1 kb (strBytes (u.path ++ "?" ++ u.rawQuery)))) := by
  simp [CreateSignature, hq, hc, hs, hk]

/-- Witness for C1 at the reference URL, key and query of the test suite. -/
theorem createSignature_is_hmac_of_raw_query_witness :
    CreateSignature kUrlStruct kPrivateKey =
      .ok (EncodeUrlSafeBase64 (hmacSha1 kKeyBytes
        (strBytes (kUrlStruct.path ++ "?" ++ kUrlStruct.rawQuery)))) :=
  createSignature_is_hmac_of_raw_query kUrlStruct kPrivateKey kQuery kKeyBytes
    (by decide) (by decide) (by decide) (by decide)

/-- Claim C3: on the reference input URL and key of the test suite,
CreateSignature returns the reference signature and SignUrl returns the
reference signed URL. -/
theorem reference_vector_signature :
    (urlParse kUrl).bind (fun u => CreateSignature u kPrivateKey) = .ok kSignature ∧
    SignUrl kUrl kPrivateKey = .ok kFullSignedUrl := by
  constructor
  · decide
  · decide

/-- Claim C5: for every URL whose URL and query parse, CheckSignedUrl
succeeds exactly when the parsed query holds exactly one `client` value
and exactly one `signature` value.  (The definition of `CheckSignedUrl`
takes no repository and invokes no cryptographic function.) -/
theorem checkSignedUrl_ok_iff_unique_client_signature (rawUrl : String) (u : URL) (q : Query)
    (hu : urlParse rawUrl = .ok u) (hq : ParseQuery u.rawQuery = .ok q) :
    (∃ r, CheckSignedUrl rawUrl = .ok r) ↔
      ((getAll q "client").length = 1 ∧ (getAll q "signature").length = 1) := by
  by_cases h1 : (getAll q "client").length = 1
  · by_cases h2 : (getAll q "signature").length = 1
    · simp [CheckSignedUrl, hu, hq, h1, h2]
    · simp [CheckSignedUrl, hu, hq, h1, h2]
  · simp [CheckSignedUrl, hu, hq, h1]

/-- Witness for C5 at the test suite's URL with a `signature` but no
`client` parameter: CheckSignedUrl fails there. -/
theorem checkSignedUrl_ok_iff_unique_client_signature_witness :
    ((∃ r, CheckSignedUrl "http://company.com?signature=xxx" = .ok r) ↔
      ((getAll [("signature", "xxx")] "client").length = 1 ∧
        (getAll [("signature", "xxx")] "signature").length = 1)) ∧
    ¬ ∃ r, CheckSignedUrl "http://company.com?signature=xxx" = .ok r := by
  constructor
  · exact checkSignedUrl_ok_iff_unique_client_signature _
      ⟨"http", "", "company.com", "", "signature=xxx", ""⟩ [("signature", "xxx")]
      (by decide) (by decide)
  · intro ⟨r, hr⟩
    have h := (checkSignedUrl_ok_iff_unique_client_signature _
      ⟨"http", "", "company.com", "", "signature=xxx", ""⟩ [("signature", "xxx")]
      (by decide) (by decide)).mp ⟨r, hr⟩
    revert h
    decide

/-- Claim C6: for every URL whose raw query parses and every key (even an
undecodable one, so the checks precede the key decode), CreateSignature
fails with the missing-client error when the query has no `client`
parameter, and fails with the unexpected-signature error when a `client`
is present but a `signature` parameter is also present. -/
theorem createSignature_requires_client_and_no_signature (u : URL) (key : String) (q : Query)
    (hq : ParseQuery u.rawQuery = .ok q) :
    (hasKey q "client" = false →
      CreateSignature u key = .error "A to-be-encoded URL must have the client query") ∧
    (hasKey q "client" = true → hasKey q "signature" = true →
      CreateSignature u key = .error "A to-be-encoded URL must NOT have the signature query") := by
  constructor
  · intro hc
    simp [CreateSignature, hq, hc]
  · intro hc hs
    simp [CreateSignature, hq, hc, hs]

/-- Witness for C6: a URL without `client` is rejected even with an
undecodable key, and one with both `client` and `signature` is rejected. -/
theorem createSignature_requires_client_and_no_signature_witness :
    (CreateSignature ⟨"http", "", "h", "/p", "a=1", ""⟩ "%%%" =
      .error "A to-be-encoded URL must have the client query") ∧
    (CreateSignature ⟨"http", "", "h", "/p", "client=x&signature=y", ""⟩ "%%%" =
      .error "A to-be-encoded URL must NOT have the signature query") :=
  ⟨(createSignature_requires_client_and_no_signature _ "%%%" [("a", "1")] (by decide)).1
      (by decide),
   (createSignature_requires_client_and_no_signature _ "%%%" [("client", "x"), ("signature", "y")]
      (by decide)).2 (by decide) (by decide)⟩

/-- Claim C9: Authenticate always yields an error value or a success
value (the embedding is total, mirroring that the Go code returns error
values and cannot panic on any input), and with a repository holding a
non-base64 key for the reference client it rejects the reference signed
URL. -/
theorem authenticate_returns_error_values :
    (∀ (repo : KeyRepository) (rawUrl : String),
      (∃ e, KeyRepository.Authenticate repo rawUrl = .error e) ∨
      (∃ r, KeyRepository.Authenticate repo rawUrl = .ok r)) ∧
    (∃ e, KeyRepository.Authenticate [("clientID", "!!!")] kFullSignedUrl = .error e) := by
  constructor
  · intro repo rawUrl
    cases h : KeyRepository.Authenticate repo rawUrl with
    | error e => exact Or.inl ⟨e, rfl⟩
    | ok r => exact Or.inr ⟨r, rfl⟩
  · exact ⟨"CreateSignature failed: DecodeUrlSafeBase64 failed: base64.StdEncoding.DecodeString failed: illegal base64 data at input byte", by decide⟩

/-- Claim C10: the signature depends only on the path and the raw query,
not on the scheme or host; consequently the reference signed URL is still
accepted after its scheme and host are replaced. -/
theorem signature_ignores_scheme_and_host :
    (∀ (u1 u2 : URL) (key : String), u1.path = u2.path → u1.rawQuery = u2.rawQuery →
      CreateSignature u1 key = CreateSignature u2 key) ∧
    (KeyRepository.Authenticate kRepo
      "https://evil.example.org/maps/api/geocode/json?address=New+York&sensor=false&client=clientID&signature=KrU1TzVQM7Ur0i8i7K3huiw3MsA=").isOk = true := by
  constructor
  · intro u1 u2 key hp hq
    unfold CreateSignature
    rw [hp, hq]
  · decide

/-- Claim C2 counterexample: a URL whose query holds the `client` value
`a` twice (and no `signature`), with the valid empty base64 key mapped to
`a` by the repository.  SignUrl succeeds on it, yet Authenticate rejects
the signed URL, because CheckSignedUrl demands exactly one `client` value
while CreateSignature only demands presence. -/
theorem signUrl_then_authenticate_duplicate_client_rejected :
    ParseQuery "client=a&client=a" = .ok [("client", "a"), ("client", "a")] ∧
    DecodeUrlSafeBase64 "" = .ok [] ∧
    mapFind [("a", "")] "a" = some "" ∧
    SignUrl kDupClientRawUrl "" = .ok kDupSignedUrl ∧
    KeyRepository.Authenticate [("a", "")] kDupSignedUrl =
      .error "CheckSignedUrl failed: Request URL must contain exactly one client parameter." := by
  refine ⟨by decide, by decide, by decide, by decide, by decide⟩

/-- Claim C4 counterexample: `kEscapedSignedUrl` is a valid signed URL
accepted by Authenticate, and changing the single character at index 134
from `D` to `d` (inside the percent-escape `%3D` of the signature value)
yields a different URL that Authenticate still accepts, because both
escapes decode to the same signature. -/
theorem authenticate_accepts_reencoded_signature :
    (KeyRepository.Authenticate kRepo kEscapedSignedUrl).isOk = true ∧
    kEscapedSignedUrl.data.getD 134 ' ' = 'D' ∧
    kEscapedSignedUrlLower.data = kEscapedSignedUrl.data.set 134 'd' ∧
    ('d' : Char) ≠ 'D' ∧
    (KeyRepository.Authenticate kRepo kEscapedSignedUrlLower).isOk = true := by
  refine ⟨by decide, by decide, by decide, by decide, by decide⟩

/-- Claim C7 counterexample: CreateSignature succeeds on a URL whose
query carries two distinct `client` values, so a successful signing does
not guarantee exactly one `client` parameter. -/
theorem createSignature_accepts_duplicate_client :
    ParseQuery "client=a&client=b" = .ok [("client", "a"), ("client", "b")] ∧
    (getAll [("client", "a"), ("client", "b")] "client").length = 2 ∧
    (CreateSignature ⟨"http", "", "h", "/p", "client=a&client=b", ""⟩ "").isOk = true := by
  refine ⟨by decide, by decide, by decide⟩

/-- Claim C8 counterexample: the line of `"a\tb"` splits into exactly two
whitespace-separated fields, yet LoadKeyRepository fails on it, because
the code splits at single space characters only. -/
theorem loadKeyRepository_rejects_tab_separated_line :
    (specWhitespaceFields "a\tb".data).map String.mk = ["a", "b"] ∧
    LoadKeyRepository "a\tb" =
      .error "Every line must contains two fields separated by a space: a\tb" := by
  refine ⟨by decide, by decide⟩

/-- Claim C7 amended: every URL that CreateSignature accepts has a parsed
raw query holding at least one `client` value and no `signature`
parameter; presence, not uniqueness, of `client` is what signing
enforces (uniqueness is checked only at authentication time). -/
theorem createSignature_ok_client_present_no_signature (u : URL) (key s : String)
    (h : CreateSignature u key = .ok s) :
    ∃ q, ParseQuery u.rawQuery = .ok q ∧ hasKey q "client" = true ∧
      hasKey q "signature" = false := by
  unfold CreateSignature at h
  cases hpq : ParseQuery u.rawQuery with
  | error e =>
      simp only [hpq] at h
      simp at h
  | ok q =>
      simp only [hpq] at h
      by_cases hc : hasKey q "client" = true
      · by_cases hs : hasKey q "signature" = true
        · rw [if_neg (by simp [hc]), if_pos hs] at h
          simp at h
        · exact ⟨q, rfl, hc, by simpa using hs⟩
      · rw [if_pos (by simpa using hc)] at h
        simp at h

/-- Witness for amended C7 at the reference URL and key of the test
suite. -/
theorem createSignature_ok_client_present_no_signature_witness :
    ∃ q, ParseQuery kUrlStruct.rawQuery = .ok q ∧ hasKey q "client" = true ∧
      hasKey q "signature" = false :=
  createSignature_ok_client_present_no_signature kUrlStruct kPrivateKey kSignature (by decide)

theorem loadLines_all_good (lines : List String) :
    ∀ repo : KeyRepository, (∀ l ∈ lines, goodLine l = true) →
    loadLines lines repo =
      .ok ((lines.filterMap lineEntry).foldl (fun m p => mapInsert m p.1 p.2) repo) := by
  induction lines with
  | nil => intro repo _; rfl
  | cons l rest ih =>
      intro repo h
      have hl := h l (List.mem_cons_self l rest)
      have htail := fun x hx => h x (List.mem_cons_of_mem l hx)
      by_cases hskip : (l.data.isEmpty = true ∨ l.data.head? = some '#')
      · have he : lineEntry l = none := by
          unfold lineEntry
          rw [if_pos hskip]
        rw [loadLines, if_pos hskip, ih repo htail, List.filterMap_cons, he]
      · have hlen : (splitChar ' ' l.data).length = 2 := by
          simp only [goodLine, Bool.or_eq_true, decide_eq_true_eq] at hl
          rcases hl with h1 | h1 | h1
          · exact absurd (Or.inl h1) hskip
          · exact absurd (Or.inr h1) hskip
          · exact h1
        cases hsp : splitChar ' ' l.data with
        | nil => rw [hsp] at hlen; simp at hlen
        | cons a t =>
            cases t with
            | nil => rw [hsp] at hlen; simp at hlen
            | cons b t2 =>
                cases t2 with
                | cons x t3 => rw [hsp] at hlen; simp at hlen
                | nil =>
                    have he : lineEntry l = some (String.mk a, String.mk b) := by
                      unfold lineEntry
                      rw [if_neg hskip, hsp]
                    rw [loadLines, if_neg hskip, hsp]
                    rw [if_neg (by simp)]
                    rw [ih (mapInsert repo (String.mk ([a, b].getD 0 []))
                      (String.mk ([a, b].getD 1 []))) htail]
                    rw [List.filterMap_cons, he, List.foldl_cons]
                    rfl

theorem loadLines_some_bad (lines : List String) :
    ∀ repo : KeyRepository, (∃ l ∈ lines, goodLine l = false) →
    ∃ e, loadLines lines repo = .error e := by
  induction lines with
  | nil =>
      intro repo hex
      obtain ⟨l, hl, _⟩ := hex
      cases hl
  | cons l rest ih =>
      intro repo hex
      obtain ⟨x, hx, hbad⟩ := hex
      by_cases hskip : (l.data.isEmpty = true ∨ l.data.head? = some '#')
      · have hgood : goodLine l = true := by
          simp only [goodLine, Bool.or_eq_true, decide_eq_true_eq]
          rcases hskip with h1 | h1
          · exact Or.inl h1
          · exact Or.inr (Or.inl h1)
        rcases List.mem_cons.mp hx with rfl | hx2
        · rw [hgood] at hbad; cases hbad
        · obtain ⟨e, he⟩ := ih repo ⟨x, hx2, hbad⟩
          exact ⟨e, by rw [loadLines, if_pos hskip, he]⟩
      · by_cases hlen2 : (splitChar ' ' l.data).length = 2
        · have hgood : goodLine l = true := by
            simp only [goodLine, Bool.or_eq_true, decide_eq_true_eq]
            exact Or.inr (Or.inr hlen2)
          rcases List.mem_cons.mp hx with rfl | hx2
          · rw [hgood] at hbad; cases hbad
          · cases hsp : splitChar ' ' l.data with
            | nil => rw [hsp] at hlen2; simp at hlen2
            | cons a t =>
                cases t with
                | nil => rw [hsp] at hlen2; simp at hlen2
                | cons b t2 =>
                    cases t2 with
                    | cons y t3 => rw [hsp] at hlen2; simp at hlen2
                    | nil =>
                        obtain ⟨e, he⟩ := ih (mapInsert repo (String.mk ([a, b].getD 0 []))
                          (String.mk ([a, b].getD 1 []))) ⟨x, hx2, hbad⟩
                        refine ⟨e, ?_⟩
                        rw [loadLines, if_neg hskip, hsp, if_neg (by simp), he]
        · refine ⟨"Every line must contains two fields separated by a space: " ++ l, ?_⟩
          rw [loadLines, if_neg hskip, if_pos hlen2]

theorem find?_map_overwrite (k v : String) :
    ∀ m : KeyRepository, m.any (fun p => p.1 == k) = true →
    ((m.map (fun p => if p.1 == k then (k, v) else p)).find? (fun p => p.1 == k)) =
      some (k, v) := by
  intro m
  induction m with
  | nil => intro h; simp at h
  | cons p t ih =>
      intro h
      by_cases hp : (p.1 == k) = true
      · simp only [List.map_cons, if_pos hp]
        rw [List.find?_cons_of_pos _ (by simp)]
      · simp only [List.map_cons, if_neg hp]
        rw [List.find?_cons_of_neg _ (by simpa using hp)]
        apply ih
        simp only [List.any_cons, hp, Bool.false_or] at h
        exact h

theorem find?_append_last (k v : String) :
    ∀ m : KeyRepository, m.any (fun p => p.1 == k) = false →
    ((m ++ [(k, v)]).find? (fun p => p.1 == k)) = some (k, v) := by
  intro m
  induction m with
  | nil =>
      intro _
      rw [List.nil_append, List.find?_cons_of_pos _ (by simp)]
  | cons p t ih =>
      intro h
      simp only [List.any_cons, Bool.or_eq_false_iff] at h
      rw [List.cons_append, List.find?_cons_of_neg _ (by simp [h.1]), ih h.2]

theorem mapFind_mapInsert (m : KeyRepository) (k v : String) :
    mapFind (mapInsert m k v) k = some v := by
  unfold mapFind mapInsert
  by_cases h : m.any (fun p => p.1 == k) = true
  · rw [if_pos h, find?_map_overwrite k v m h]
    rfl
  · rw [if_neg h, find?_append_last k v m (Bool.eq_false_iff.mpr h)]
    rfl

/-- Claim C8 amended: LoadKeyRepository skips empty lines and lines
beginning with `#`; it fails, naming the offending line, exactly when
some other line does not split into two fields at single space characters
(so tabs or doubled spaces are malformed); otherwise it returns the
first-to-last fold of the entries where a later duplicate client id
overwrites the earlier entry; the reference source of the test suite
yields the two-entry repository. -/
theorem loadKeyRepository_space_split_spec :
    (∀ src : String,
      ((∀ l ∈ scanLines src, goodLine l = true) →
        LoadKeyRepository src =
          .ok (((scanLines src).filterMap lineEntry).foldl
            (fun m p => mapInsert m p.1 p.2) [])) ∧
      ((∃ l ∈ scanLines src, goodLine l = false) →
        ∃ e, LoadKeyRepository src = .error e)) ∧
    (∀ (m : KeyRepository) (k v : String), mapFind (mapInsert m k v) k = some v) ∧
    LoadKeyRepository "clientID vNIXE0xscrmjlyV-12Nj_BvUPaw=\nyiw something" =
      .ok [("clientID", "vNIXE0xscrmjlyV-12Nj_BvUPaw="), ("yiw", "something")] ∧
    ([("clientID", "vNIXE0xscrmjlyV-12Nj_BvUPaw="), ("yiw", "something")] :
      KeyRepository).length = 2 := by
  refine ⟨fun src => ⟨fun h => ?_, fun hex => ?_⟩, mapFind_mapInsert, by decide, by decide⟩
  · exact loadLines_all_good (scanLines src) [] h
  · exact loadLines_some_bad (scanLines src) [] hex

/-- Witness for amended C8: a two-line source with an overwritten client
id loads to the fold value, and lookup after an overwriting insert
returns the newer key. -/
theorem loadKeyRepository_space_split_spec_witness :
    LoadKeyRepository "a 1\n# c\na 2" =
      .ok (((scanLines "a 1\n# c\na 2").filterMap lineEntry).foldl
        (fun m p => mapInsert m p.1 p.2) []) ∧
    mapFind (mapInsert [("a", "1")] "a" "2") "a" = some "2" :=
  ⟨(loadKeyRepository_space_split_spec.1 "a 1\n# c\na 2").1 (by decide),
   loadKeyRepository_space_split_spec.2.1 [("a", "1")] "a" "2"⟩

theorem checkSignedUrl_ok_iff (rawUrl : String) (r : URL × Query) :
    CheckSignedUrl rawUrl = .ok r ↔
      urlParse rawUrl = .ok r.1 ∧ ParseQuery r.1.rawQuery = .ok r.2 ∧
      (getAll r.2 "client").length = 1 ∧ (getAll r.2 "signature").length = 1 := by
  constructor
  · intro h
    unfold CheckSignedUrl at h
    cases hu : urlParse rawUrl with
    | error e => simp only [hu] at h; simp at h
    | ok u =>
        simp only [hu] at h
        cases hq : ParseQuery u.rawQuery with
        | error e => simp only [hq] at h; simp at h
        | ok q =>
            simp only [hq] at h
            by_cases h1 : (getAll q "client").length = 1
            · by_cases h2 : (getAll q "signature").length = 1
              · rw [if_neg (by simp [h1]), if_neg (by simp [h2])] at h
                obtain rfl := Except.ok.inj h
                exact ⟨rfl, hq, h1, h2⟩
              · rw [if_neg (by simp [h1]), if_pos h2] at h
                simp at h
            · rw [if_pos h1] at h
              simp at h
  · intro ⟨h1, h2, h3, h4⟩
    unfold CheckSignedUrl
    simp only [h1, h2]
    rw [if_neg (by simp [h3]), if_neg (by simp [h4])]

theorem authenticate_ok_elim (repo : KeyRepository) (s : String) (r : URL × Query)
    (h : KeyRepository.Authenticate repo s = .ok r) :
    CheckSignedUrl s = .ok r ∧
    ∃ key n uws, mapFind repo ((getAll r.2 "client").headD "") = some key ∧
      lastIndexOf s.data sigMarker = some n ∧
      urlParse (String.mk (s.data.take n)) = .ok uws ∧
      CreateSignature uws key = .ok ((getAll r.2 "signature").headD "") := by
  unfold KeyRepository.Authenticate at h
  cases hc : CheckSignedUrl s with
  | error e => simp only [hc] at h; simp at h
  | ok pr =>
      obtain ⟨u, q⟩ := pr
      simp only [hc] at h
      cases hf : mapFind repo ((getAll q "client").headD "") with
      | none => simp only [hf] at h; simp at h
      | some key =>
          simp only [hf] at h
          cases hn : lastIndexOf s.data sigMarker with
          | none => simp only [hn] at h; simp at h
          | some n =>
              simp only [hn] at h
              cases hp : urlParse (String.mk (s.data.take n)) with
              | error e => simp only [hp] at h; simp at h
              | ok uws =>
                  simp only [hp] at h
                  cases hcs : CreateSignature uws key with
                  | error e => simp only [hcs] at h; simp at h
                  | ok signature =>
                      simp only [hcs] at h
                      by_cases hne : (getAll q "signature").headD "" ≠ signature
                      · rw [if_pos hne] at h
                        simp at h
                      · rw [if_neg hne] at h
                        obtain rfl := Except.ok.inj h
                        push_neg at hne
                        exact ⟨rfl, key, n, uws, hf, rfl, hp, by rw [hne]; exact hcs⟩

/-- Claim C4 amended: for a valid signed URL, a modification of the tail
after the last `&signature=` marker that leaves the URL parseable, keeps
the marker position and the preceding prefix, and keeps the same `client`
value, is rejected by Authenticate whenever the modified URL's parsed
`signature` values differ from the original's; a modification that
re-encodes the same value (such as changing a percent-escape hex digit's
case) is not detected. -/
theorem authenticate_rejects_changed_signature_value
    (repo : KeyRepository) (s s' : String) (r : URL × Query) (u' : URL) (q' : Query) (n : Nat)
    (hacc : KeyRepository.Authenticate repo s = .ok r)
    (hn : lastIndexOf s.data sigMarker = some n)
    (hn' : lastIndexOf s'.data sigMarker = some n)
    (hpre : s'.data.take n = s.data.take n)
    (hu' : urlParse s' = .ok u')
    (hq' : ParseQuery u'.rawQuery = .ok q')
    (hcl : getAll q' "client" = getAll r.2 "client")
    (hsig : getAll q' "signature" ≠ getAll r.2 "signature") :
    ∃ e, KeyRepository.Authenticate repo s' = .error e := by
  obtain ⟨hchk, key, n0, uws, hf, hn0, hp, hcs⟩ := authenticate_ok_elim repo s r hacc
  rw [hn] at hn0
  obtain rfl : n = n0 := Option.some.inj hn0
  obtain ⟨_, _, hc1, hs1⟩ := (checkSignedUrl_ok_iff s r).mp hchk
  have hc1' : (getAll q' "client").length = 1 := by rw [hcl]; exact hc1
  by_cases hs2 : (getAll q' "signature").length = 1
  · have hchk' : CheckSignedUrl s' = .ok (u', q') :=
      (checkSignedUrl_ok_iff s' (u', q')).mpr ⟨hu', hq', hc1', hs2⟩
    have hfind' : mapFind repo ((getAll q' "client").headD "") = some key := by
      rw [hcl]; exact hf
    have hparse' : urlParse (String.mk (s'.data.take n)) = .ok uws := by
      rw [hpre]; exact hp
    have hne : (getAll q' "signature").headD "" ≠ (getAll r.2 "signature").headD "" := by
      intro heq
      apply hsig
      calc getAll q' "signature" = [(getAll q' "signature").headD ""] :=
            eq_singleton_headD _ hs2
        _ = [(getAll r.2 "signature").headD ""] := by rw [heq]
        _ = getAll r.2 "signature" := (eq_singleton_headD _ hs1).symm
    refine ⟨"Attached signature is not equal to computed signature", ?_⟩
    unfold KeyRepository.Authenticate
    simp only [hchk', hfind', hn', hparse', hcs]
    rw [if_pos hne]
  · have hchk' : CheckSignedUrl s' =
        .error "Request URL must contain exactly one signature parameter." := by
      unfold CheckSignedUrl
      simp only [hu', hq']
      rw [if_neg (by simp [hc1']), if_pos hs2]
    refine ⟨"CheckSignedUrl failed: Request URL must contain exactly one signature parameter.", ?_⟩
    unfold KeyRepository.Authenticate
    simp only [hchk']
    rfl

/-- Witness for amended C4: flipping the last character of the reference
signature value from `=` to `x` changes the parsed signature value, and
Authenticate rejects the modified URL. -/
theorem authenticate_rejects_changed_signature_value_witness :
    ∃ e, KeyRepository.Authenticate kRepo kFlippedSignedUrl = .error e :=
  authenticate_rejects_changed_signature_value kRepo kFullSignedUrl kFlippedSignedUrl
    (kFullStruct, kFullQuery) kFlippedStruct kFlippedQuery 94
    (by decide) (by decide) (by decide) (by decide) (by decide) (by decide)
    (by decide) (by decide)

/-- Witness for C10: two URLs differing only in scheme and host give the
same CreateSignature result. -/
theorem signature_ignores_scheme_and_host_witness :
    CreateSignature ⟨"http", "", "a.example", "/p", "client=x", ""⟩ kPrivateKey =
      CreateSignature ⟨"https", "", "b.example", "/p", "client=x", ""⟩ kPrivateKey ∧
    (KeyRepository.Authenticate kRepo
      "https://evil.example.org/maps/api/geocode/json?address=New+York&sensor=false&client=clientID&signature=KrU1TzVQM7Ur0i8i7K3huiw3MsA=").isOk = true :=
  ⟨signature_ignores_scheme_and_host.1 _ _ kPrivateKey rfl rfl,
   signature_ignores_scheme_and_host.2⟩

/-- C2 (amended): for a canonical-form raw URL `scheme://host/path?query`
(lowercase-letter scheme, unreserved host characters, a path that is empty
or starts with `/` and has no percent-escapes, a non-empty query free of
`?`, `#` and control bytes) whose parsed query carries exactly one
`client` value `id` and no `signature` parameter, any key that
URL-safe-base64-decodes, and any repository mapping `id` to that key:
SignUrl succeeds, Authenticate accepts the signed URL and returns a
parameter mapping whose `client` value equals `id`, the last
`&signature=` marker of the signed URL sits exactly at the end of the
original raw URL so that truncating there recovers exactly the string
that was signed, and re-signing that prefix yields the attached
signature. -/
theorem signUrl_authenticate_roundtrip
    (sc hh pp qq : List Char) (id key : String) (kb : List Nat)
    (repo : KeyRepository) (Q : Query)
    (hsc1 : sc ≠ []) (hsc2 : ∀ c ∈ sc, lowerAlpha c = true)
    (hh2 : ∀ c ∈ hh, hostSafeChar c = true)
    (hp1 : pp = [] ∨ pp.head? = some '/')
    (hp2 : ∀ c ∈ pp, pathSafeChar c = true)
    (hq0 : qq ≠ []) (hq1 : ∀ c ∈ qq, querySafeChar c = true)
    (hQ : ParseQuery (String.mk qq) = .ok Q)
    (hclient : getAll Q "client" = [id])
    (hnosig : hasKey Q "signature" = false)
    (hkb : DecodeUrlSafeBase64 key = .ok kb)
    (hrepo : mapFind repo id = some key) :
    ∃ (signed : String) (u' : URL) (q' : Query),
      SignUrl (String.mk (sc ++ ':' :: '/' :: '/' :: ((hh ++ pp) ++ '?' :: qq))) key
        = .ok signed ∧
      KeyRepository.Authenticate repo signed = .ok (u', q') ∧
      getAll q' "client" = [id] ∧
      lastIndexOf signed.data sigMarker
        = some (sc ++ ':' :: '/' :: '/' :: ((hh ++ pp) ++ '?' :: qq)).length ∧
      signed.data.take (sc ++ ':' :: '/' :: '/' :: ((hh ++ pp) ++ '?' :: qq)).length
        = sc ++ ':' :: '/' :: '/' :: ((hh ++ pp) ++ '?' :: qq) ∧
      CreateSignature ⟨String.mk sc, "", String.mk hh, String.mk pp, String.mk qq, ""⟩ key
        = .ok ((getAll q' "signature").headD "") := by
  obtain ⟨sigS, hsig⟩ : ∃ s, EncodeUrlSafeBase64
      (hmacSha1 kb (strBytes (String.mk pp ++ "?" ++ String.mk qq))) = s := ⟨_, rfl⟩
  have hsigchars : ∀ c ∈ sigS.data, b64uChar c = true := by
    rw [← hsig]; exact encodeUrlSafe_b64u _
  have hhasc : hasKey Q "client" = true := hasKey_of_getAll_cons Q "client" id [] hclient
  have hcs1 : CreateSignature ⟨String.mk sc, "", String.mk hh, String.mk pp, String.mk qq, ""⟩ key
      = .ok sigS := by
    unfold CreateSignature
    simp only []
    rw [hQ]
    simp only []
    rw [if_neg (by simp [hhasc]), if_neg (by simp [hnosig]), hkb]
    simp only []
    rw [hsig]
  have hparse1 := urlParse_constructed sc hh pp qq hsc1 hsc2 hh2 hp1 hp2 hq0 hq1
  have hsign : SignUrl (String.mk (sc ++ ':' :: '/' :: '/' :: ((hh ++ pp) ++ '?' :: qq))) key
      = .ok (String.mk sc ++ "://" ++ String.mk hh ++ String.mk pp ++ "?" ++ String.mk qq
             ++ "&signature=" ++ sigS) := by
    unfold SignUrl
    rw [hparse1]
    simp only []
    rw [hcs1]
  have hsigneddata : (String.mk sc ++ "://" ++ String.mk hh ++ String.mk pp ++ "?" ++ String.mk qq
        ++ "&signature=" ++ sigS).data
      = sc ++ ':' :: '/' :: '/' :: ((hh ++ pp) ++ '?' ::
          (qq ++ '&' :: (sigTail ++ sigS.data))) := by
    simp only [data_append, data_mk]
    simp [sigTail]
  have hSeq : (String.mk sc ++ "://" ++ String.mk hh ++ String.mk pp ++ "?" ++ String.mk qq
        ++ "&signature=" ++ sigS)
      = String.mk (sc ++ ':' :: '/' :: '/' :: ((hh ++ pp) ++ '?' ::
          (qq ++ '&' :: (sigTail ++ sigS.data)))) := by
    have := congrArg String.mk hsigneddata
    rwa [mk_data] at this
  rw [hSeq] at hsign
  have hq1' : ∀ c ∈ qq ++ '&' :: (sigTail ++ sigS.data), querySafeChar c = true := by
    intro c hc
    simp only [List.mem_append, List.mem_cons] at hc
    rcases hc with h | h | h | h
    · exact hq1 c h
    · subst h; decide
    · fin_cases h <;> decide
    · exact (b64u_querySafe c (hsigchars c h)).1
  have hparse2 : urlParse (String.mk (sc ++ ':' :: '/' :: '/' :: ((hh ++ pp) ++ '?' ::
        (qq ++ '&' :: (sigTail ++ sigS.data)))))
      = .ok ⟨String.mk sc, "", String.mk hh, String.mk pp,
             String.mk (qq ++ '&' :: (sigTail ++ sigS.data)), ""⟩ :=
    urlParse_constructed sc hh pp (qq ++ '&' :: (sigTail ++ sigS.data)) hsc1 hsc2 hh2 hp1 hp2 (by simp) hq1'
  have hpq2 : ParseQuery (String.mk (qq ++ '&' :: (sigTail ++ sigS.data)))
      = .ok (Q ++ [("signature", sigS)]) := by
    unfold ParseQuery
    rw [data_mk, splitChar_append]
    rw [splitChar_no_sep '&' (sigTail ++ sigS.data) (by
      intro c hc
      rcases List.mem_append.mp hc with h | h
      · fin_cases h <;> decide
      · exact (b64u_querySafe c (hsigchars c h)).2)]
    rw [parsePieces_append]
    have hQ' : parsePieces (splitChar '&' qq) = .ok Q := by
      have h0 := hQ
      unfold ParseQuery at h0
      rwa [data_mk] at h0
    rw [hQ', parsePieces_sig_piece sigS.data hsigchars]
    rfl
  have hga_client : getAll (Q ++ [("signature", sigS)]) "client" = [id] := by
    rw [getAll_append, hclient]
    have hone : getAll [(("signature" : String), sigS)] "client" = [] := by
      simp only [getAll, List.filter_cons, List.filter_nil]
      rw [if_neg]
      · rfl
      · show ¬ ((decide (("signature" : String) = "client")) = true)
        decide
    rw [hone, List.append_nil]
  have hga_sig : getAll (Q ++ [("signature", sigS)]) "signature" = [sigS] := by
    rw [getAll_append, getAll_eq_nil_of_not_hasKey Q "signature" hnosig]
    simp only [List.nil_append]
    simp only [getAll, List.filter_cons, List.filter_nil]
    rw [if_pos]
    · rfl
    · show (decide (("signature" : String) = "signature")) = true
      decide
  have hcheck : CheckSignedUrl (String.mk (sc ++ ':' :: '/' :: '/' :: ((hh ++ pp) ++ '?' ::
        (qq ++ '&' :: (sigTail ++ sigS.data)))))
      = .ok (⟨String.mk sc, "", String.mk hh, String.mk pp,
              String.mk (qq ++ '&' :: (sigTail ++ sigS.data)), ""⟩,
             Q ++ [("signature", sigS)]) := by
    unfold CheckSignedUrl
    rw [hparse2]
    simp only []
    rw [hpq2]
    simp only []
    rw [if_neg (by rw [hga_client]; simp), if_neg (by rw [hga_sig]; simp)]
  have hshape : sc ++ ':' :: '/' :: '/' :: ((hh ++ pp) ++ '?' ::
        (qq ++ '&' :: (sigTail ++ sigS.data)))
      = (sc ++ ':' :: '/' :: '/' :: ((hh ++ pp) ++ '?' :: qq)) ++ sigMarker ++ sigS.data := by
    simp [sigMarker, sigTail]
  have hmarker := lastIndexOf_append_marker
    (sc ++ ':' :: '/' :: '/' :: ((hh ++ pp) ++ '?' :: qq)) sigS.data
    (fun c hc => (b64u_querySafe c (hsigchars c hc)).2)
  have htake : ((sc ++ ':' :: '/' :: '/' :: ((hh ++ pp) ++ '?' :: qq)) ++ sigMarker
        ++ sigS.data).take (sc ++ ':' :: '/' :: '/' :: ((hh ++ pp) ++ '?' :: qq)).length
      = sc ++ ':' :: '/' :: '/' :: ((hh ++ pp) ++ '?' :: qq) := by
    rw [List.append_assoc (sc ++ ':' :: '/' :: '/' :: ((hh ++ pp) ++ '?' :: qq)) sigMarker sigS.data]
    exact List.take_left _ _
  have hauth : KeyRepository.Authenticate repo (String.mk (sc ++ ':' :: '/' :: '/' ::
        ((hh ++ pp) ++ '?' :: (qq ++ '&' :: (sigTail ++ sigS.data)))))
      = .ok (⟨String.mk sc, "", String.mk hh, String.mk pp,
              String.mk (qq ++ '&' :: (sigTail ++ sigS.data)), ""⟩,
             Q ++ [("signature", sigS)]) := by
    unfold KeyRepository.Authenticate
    rw [hcheck]
    simp only []
    rw [hga_client]
    simp only [List.headD_cons]
    rw [hrepo]
    simp only []
    rw [hga_sig]
    simp only [List.headD_cons, data_mk]
    rw [hshape, hmarker]
    simp only []
    rw [htake, hparse1]
    simp only []
    rw [hcs1]
    simp only []
    rw [if_neg (by simp)]
  refine ⟨String.mk (sc ++ ':' :: '/' :: '/' :: ((hh ++ pp) ++ '?' ::
      (qq ++ '&' :: (sigTail ++ sigS.data)))),
    ⟨String.mk sc, "", String.mk hh, String.mk pp,
     String.mk (qq ++ '&' :: (sigTail ++ sigS.data)), ""⟩,
    Q ++ [("signature", sigS)], hsign, hauth, hga_client, ?_, ?_, ?_⟩
  · rw [data_mk, hshape]
    exact hmarker
  · rw [data_mk, hshape]
    exact htake
  · rw [hcs1, hga_sig]
    rfl

/-- Witness for amended C2 at the reference URL, key and repository of
the test suite. -/
theorem signUrl_authenticate_roundtrip_witness :
    ∃ (signed : String) (u' : URL) (q' : Query),
      SignUrl kUrl kPrivateKey = .ok signed ∧
      KeyRepository.Authenticate kRepo signed = .ok (u', q') ∧
      getAll q' "client" = ["clientID"] := by
  obtain ⟨signed, u', q', h1, h2, h3, -, -, -⟩ :=
    signUrl_authenticate_roundtrip "http".data "maps.googleapis.com".data
      "/maps/api/geocode/json".data "address=New+York&sensor=false&client=clientID".data
      "clientID" kPrivateKey kKeyBytes kRepo kQuery
      (by decide) (by decide) (by decide) (by decide) (by decide) (by decide) (by decide)
      (by decide) (by decide) (by decide) (by decide) (by decide)
  exact ⟨signed, u', q', h1, h2, h3⟩

end Bizapi
